import Mathlib

/-!
bilibili-lametric: the query encoder and the stat relay handler.

A shallow embedding of `src/main.go`.

* Go strings are Lean `String`s (Unicode text).  Go orders strings byte-wise;
  for UTF-8 text that is the order of the code points, which is the
  lexicographic order of `String.data` used here.
* A Go `map[string]T` is an association list.  The order of the list is the
  order in which `range` visits the entries, so a statement quantified over
  all lists that hold the same entries is a statement about every iteration
  order.  Keys of a Go map are pairwise distinct (`Nodup` below).
* `interface{}` parameter values are the type `Value`: anything that is not a
  `[]interface{}` or a `map[string]interface{}` is a scalar.
* The standard library functions the program calls (`fmt.Sprintf`,
  `url.QueryEscape`, `url.Values`, `strings.TrimSpace`, `url.Parse`) are
  modelled from the Go standard library; the network and the JSON decoder
  are the fields of `Env`.
-/

namespace BilibiliLametric

/-! ## Parameter values -/

/-- The dynamic value in the `default` arm of the type switches: a string, an
`int`, a `bool` or the nil interface. -/
inductive Scalar
  | str (s : String)
  | int (n : Int)
  | bool (b : Bool)
  | null
deriving DecidableEq, Repr

/-- An `interface{}` parameter value as the type switches of `build`,
`parseKeyValue` and `parseNormal` see it. -/
inductive Value
  | scalar (s : Scalar)
  | list (xs : List Value)
  | map (kvs : List (String × Value))

/-! ## `fmt` -/

/-- The verb `%d` applied to an integer: its decimal text. -/
def fmtD (n : Int) : String := toString n

/-- The verb `%s` applied to a dynamic scalar, `fmt.Sprintf("%s", vv)`.  A
string is printed as it is; for an operand of any other type `fmt` prints
its bad-verb form `%!s(type=value)`, and `%!s(<nil>)` for nil. -/
def fmtS : Scalar → String
  | .str s => s
  | .int n => "%!s(int=" ++ toString n ++ ")"
  | .bool b => "%!s(bool=" ++ (if b then "true" else "false") ++ ")"
  | .null => "%!s(<nil>)"

/-! ## `net/url`: escaping and `Values` -/

/-- The digits of `upperhex` in `net/url`. -/
def upperhex (n : Nat) : Char := "0123456789ABCDEF".data.getD n '0'

/-- The UTF-8 bytes of a character. -/
def utf8Bytes (c : Char) : List Nat :=
  let n := c.toNat
  if n < 0x80 then [n]
  else if n < 0x800 then [0xC0 + n / 64, 0x80 + n % 64]
  else if n < 0x10000 then [0xE0 + n / 4096, 0x80 + n / 64 % 64, 0x80 + n % 64]
  else [0xF0 + n / 262144, 0x80 + n / 4096 % 64, 0x80 + n / 64 % 64, 0x80 + n % 64]

/-- The bytes `shouldEscape` leaves alone in mode `encodeQueryComponent`:
ASCII letters, digits and `-`, `_`, `.`, `~`. -/
def unreserved (c : Char) : Bool :=
  ('a'.toNat ≤ c.toNat && c.toNat ≤ 'z'.toNat) ||
  ('A'.toNat ≤ c.toNat && c.toNat ≤ 'Z'.toNat) ||
  ('0'.toNat ≤ c.toNat && c.toNat ≤ '9'.toNat) ||
  c = '-' || c = '_' || c = '.' || c = '~'

/-- What `escape` writes for one character in mode `encodeQueryComponent`. -/
def escapeChar (c : Char) : List Char :=
  if c = ' ' then ['+']
  else if unreserved c then [c]
  else (utf8Bytes c).flatMap (fun b => ['%', upperhex (b / 16), upperhex (b % 16)])

/-- Go `url.QueryEscape`. -/
def QueryEscape (s : String) : String := String.mk (s.data.flatMap escapeChar)

/-- Go `url.Values`, a `map[string][]string`. -/
abbrev Values := List (String × List String)

/-- The map read `v[key]`; a missing key reads as the nil slice. -/
def Values.lookup (v : Values) (key : String) : List String :=
  match v with
  | [] => []
  | (k, vs) :: rest => if k = key then vs else Values.lookup rest key

/-- Go `Values.Get`: the first value of the key, or the empty string. -/
def Values.Get (v : Values) (key : String) : String :=
  match Values.lookup v key with
  | [] => ""
  | x :: _ => x

/-- Go `Values.Add`: `v[key] = append(v[key], value)`. -/
def Values.Add (v : Values) (key value : String) : Values :=
  match v with
  | [] => [(key, [value])]
  | (k, vs) :: rest =>
    if k = key then (k, vs ++ [value]) :: rest else (k, vs) :: Values.Add rest key value

/-- The order of `sort.Strings`. -/
def strLE (a b : String) : Prop := a.data ≤ b.data

instance : DecidableRel strLE := fun a b => inferInstanceAs (Decidable (a.data ≤ b.data))

instance : IsTotal String strLE := ⟨fun a b => le_total a.data b.data⟩

instance : IsTrans String strLE := ⟨fun _ _ _ h1 h2 => le_trans h1 h2⟩

instance : IsAntisymm String strLE := ⟨fun _ _ h1 h2 => String.ext (le_antisymm h1 h2)⟩

/-- Go `sort.Strings` on the keys of a map.  The keys of a map are pairwise
distinct, so every sorting algorithm returns the same list. -/
def sortStrings (keys : List String) : List String := keys.insertionSort strLE

/-- The inner loop of `Values.Encode`: the pairs of one key appended to the
buffer, each after a `&` when the buffer is not empty. -/
def encodeKey (buf : String) (k : String) (vs : List String) : String :=
  vs.foldl
    (fun buf v => (if buf.length > 0 then buf ++ "&" else buf) ++ QueryEscape k ++ "=" ++ QueryEscape v)
    buf

/-- Go `Values.Encode`: the pairs `key=value`, both escaped, by sorted key. -/
def Values.Encode (v : Values) : String :=
  (sortStrings (v.map Prod.fst)).foldl (fun buf k => encodeKey buf k (Values.lookup v k)) ""

/-! ## The query encoder -/

/-- The flat parameter map `p`, a Go `map[string]string`. -/
abbrev FlatMap := List (String × String)

/-- The map write `p[k] = v`: the value of an existing key is replaced, a new
key is added. -/
def FlatMap.set (p : FlatMap) (k v : String) : FlatMap :=
  match p with
  | [] => [(k, v)]
  | (k', v') :: rest => if k' = k then (k, v) :: rest else (k', v') :: FlatMap.set rest k v

/-- The loop over `keys` in the `default` arms followed by `strings.Join(tmp, "")`:
every key but the first is wrapped in brackets. -/
def joinKeys (keys : List String) : String :=
  String.join (keys.enum.map (fun mn => if mn.1 > 0 then "[" ++ mn.2 ++ "]" else mn.2))

mutual
/-- The type switch in the body of the loop of `parseKeyValue`, for the
entry `k`, `v`.  The slice `append(keys, k)` is `keys ++ [k]`: it is read
only during the recursive call it is passed to, so that it may share its
array with `keys` is not observable. -/
def parseKeyValueCase (p : FlatMap) (k : String) (v : Value) (keys : List String) : FlatMap :=
  match v with
  | .list vv => parseNormalFrom p vv (keys ++ [k]) 0
  | .map vv => parseKeyValue p vv (keys ++ [k])
  | .scalar vv => p.set (joinKeys keys ++ "[" ++ k ++ "]") (fmtS vv)
termination_by structural v
/-- Go `parseKeyValue`: the entries are visited in the order of the list. -/
def parseKeyValue (p : FlatMap) (raw : List (String × Value)) (keys : List String) : FlatMap :=
  match raw with
  | [] => p
  | (k, v) :: rest => parseKeyValue (parseKeyValueCase p k v keys) rest keys
termination_by structural raw
/-- The type switch in the body of the loop of `parseNormal`, at index `k`. -/
def parseNormalCase (p : FlatMap) (k : Nat) (v : Value) (keys : List String) : FlatMap :=
  match v with
  | .list vv => parseNormalFrom p vv (keys ++ [fmtD k]) 0
  | .map vv => parseKeyValue p vv (keys ++ [fmtD k])
  | .scalar vv => p.set (joinKeys keys ++ "[" ++ fmtD k ++ "]") (fmtS vv)
termination_by structural v
/-- The loop of `parseNormal` from index `k` on. -/
def parseNormalFrom (p : FlatMap) (raw : List Value) (keys : List String) (k : Nat) : FlatMap :=
  match raw with
  | [] => p
  | v :: rest => parseNormalFrom (parseNormalCase p k v keys) rest keys (k + 1)
termination_by structural raw
end

/-- Go `parseNormal`. -/
def parseNormal (p : FlatMap) (raw : List Value) (keys : List String) : FlatMap :=
  parseNormalFrom p raw keys 0

/-- The first loop of `build` (lines 242-261), which fills the flat map. -/
def buildLoop (p : FlatMap) (raw : List (String × Value)) : FlatMap :=
  match raw with
  | [] => p
  | (k, .list vv) :: rest => buildLoop (parseNormal p vv [k]) rest
  | (k, .map vv) :: rest => buildLoop (parseKeyValue p vv [k]) rest
  | (k, .scalar vv) :: rest => buildLoop (p.set k (fmtS vv)) rest

/-- The flat parameter map `build` has constructed when its first loop ends. -/
def flatParams (raw : List (String × Value)) : FlatMap := buildLoop [] raw

/-- The rest of `build` (lines 263-269): the entries of `p`, visited in the
order of the list, are added to a `url.Values`, which is then encoded. -/
def encodeParams (p : FlatMap) : String :=
  Values.Encode (p.foldl (fun data kv => Values.Add data kv.1 kv.2) [])

/-- Go `build`; its error result is always nil. -/
def build (raw : List (String × Value)) : String := encodeParams (flatParams raw)

/-! ## `strings.TrimSpace` and `url.Parse` -/

/-- Go `unicode.IsSpace`. -/
def isSpace (c : Char) : Bool :=
  let n := c.toNat
  (0x09 ≤ n && n ≤ 0x0D) || n = 0x20 || n = 0x85 || n = 0xA0 || n = 0x1680 ||
  (0x2000 ≤ n && n ≤ 0x200A) || n = 0x2028 || n = 0x2029 || n = 0x202F || n = 0x205F ||
  n = 0x3000

/-- Go `strings.TrimSpace`: leading and trailing white space removed. -/
def TrimSpace (s : String) : String :=
  String.mk ((s.data.dropWhile isSpace).reverse.dropWhile isSpace).reverse

/-- The bytes `url.Parse` rejects as control characters. -/
def isCTL (c : Char) : Bool := c.toNat < 0x20 || c.toNat = 0x7F

/-- Go `ishex` of `net/url`. -/
def ishex (c : Char) : Bool :=
  ('0'.toNat ≤ c.toNat && c.toNat ≤ '9'.toNat) ||
  ('a'.toNat ≤ c.toNat && c.toNat ≤ 'f'.toNat) ||
  ('A'.toNat ≤ c.toNat && c.toNat ≤ 'F'.toNat)

/-- The check `unescape` makes on a fragment: every `%` is followed by two
hexadecimal digits. -/
def validEscapes : List Char → Bool
  | [] => true
  | c :: rest =>
    if c = '%' then
      match rest with
      | a :: b :: rest' => ishex a && ishex b && validEscapes rest'
      | _ => false
    else validEscapes rest

/-- The field of `url.URL` that `httpGet` reads. -/
structure URL where
  RawQuery : String
deriving DecidableEq, Repr

/-- Go `url.Parse`, as far as `httpGet` depends on it: the fragment is cut off
at the first `#`; a control character before the fragment, or a malformed
escape in the fragment, is an error (`none`); `RawQuery` is what follows the
first `?`, and is empty when the only `?` is the last character.  The scheme,
the authority and the path are not examined: every URL this program parses
begins with a constant `https://api.bilibili.com/x/...` that Go accepts. -/
def urlParse (rawURL : String) : Option URL :=
  let u := rawURL.data.takeWhile (fun c => c != '#')
  let frag := (rawURL.data.dropWhile (fun c => c != '#')).drop 1
  if u.any isCTL then none
  else if !validEscapes frag then none
  else if u.getLast? = some '?' && u.count '?' = 1 then some ⟨""⟩
  else some ⟨String.mk ((u.dropWhile (fun c => c != '?')).drop 1)⟩

/-! ## The stat relay handler -/

/-- The envelope header `ApiStat`. -/
structure ApiStat where
  Code : Int
  Message : String
  TTL : Int

/-- The payload `Stat`. -/
structure Stat where
  Mid : Int
  Following : Int
  Whisper : Int
  Black : Int
  Follower : Int

/-- The envelope `StatResp`. -/
structure StatResp extends ApiStat where
  Data : Stat

/-- The payload `ViewCount`. -/
structure ViewCount where
  View : Int

/-- The payload `UpStat`. -/
structure UpStat where
  Archive : ViewCount
  Article : ViewCount

/-- The envelope `UpStatResp`. -/
structure UpStatResp extends ApiStat where
  Data : UpStat

/-- The error envelope `ApiResponse`; its `Data` is never set, and is omitted
from the JSON text. -/
structure ApiResponse where
  ErrCode : Int
  ErrMsg : String
deriving DecidableEq, Repr

/-- One display frame. -/
structure LaMetricData where
  Text : String
  Icon : String
deriving DecidableEq, Repr

/-- A Go `error` value: nil, or an error with the text of its `Error()`. -/
inductive GoError
  | nil
  | err (text : String)
deriving DecidableEq, Repr

/-- The call `err.Error()`: on the nil interface it is a nil dereference, a
run-time panic (`none`). -/
def GoError.Error : GoError → Option String
  | .nil => none
  | .err text => some text

/-- The value handed to `json.Marshal` and written to the response. -/
inductive Body
  | apiResponse (res : ApiResponse)
  | frames (fs : List LaMetricData)
deriving DecidableEq, Repr

/-- How a run of the handler ends: the body it wrote, or a panic before
anything was written. -/
inductive Outcome
  | wrote (body : Body)
  | panicked
deriving DecidableEq, Repr

/-- What a run of the handler did: the URLs given to `http.Get`, in order,
and how it ended. -/
structure Run where
  calls : List String
  outcome : Outcome
deriving DecidableEq, Repr

/-- The world outside the program. -/
structure Env where
  /-- `http.Get` followed by `ioutil.ReadAll`: the body, or the error text. -/
  get : String → Except String String
  /-- `json.Unmarshal` into a `StatResp`. -/
  unmarshalStat : String → Except String StatResp
  /-- `json.Unmarshal` into an `UpStatResp`. -/
  unmarshalUpStat : String → Except String UpStatResp
  /-- The `Error()` text of the error `url.Parse` returns for a URL. -/
  parseErrorText : String → String

/-- Go `apiSendError`. -/
def apiSendError (errCode : Int) (errMsg : String) : Outcome :=
  .wrote (.apiResponse ⟨errCode, errMsg⟩)

/-- Go `apiSendData`, for the map with the single key `frames`. -/
def apiSendData (frames : List LaMetricData) : Outcome := .wrote (.frames frames)

/-- The statement `apiSendError(-1, err.Error(), w)`: the argument is
evaluated first. -/
def sendErrorOf (err : GoError) : Outcome :=
  match err.Error with
  | none => .panicked
  | some msg => apiSendError (-1) msg

/-- The results of `httpGet`, with the URLs it gave to `http.Get`. -/
structure GetResult where
  calls : List String
  body : String
  err : GoError

/-- Go `httpGet`. -/
def httpGet (env : Env) (api : String) (param : List (String × Value)) : GetResult :=
  let queryStr := build param
  match urlParse api with
  | none => ⟨[], "", .err (env.parseErrorText api)⟩
  | some apiInfo =>
    let api := if apiInfo.RawQuery = "" then api ++ "?" ++ queryStr else api ++ "&" ++ queryStr
    match env.get api with
    | .error e => ⟨[api], "", .err e⟩
    | .ok body => ⟨[api], body, .nil⟩

/-- The URL of the relation-stats call as the handler formats it. -/
def statURL (mid : String) : String :=
  "https://api.bilibili.com/x/relation/stat?vmid=" ++ mid ++ "&jsonp=jsonp"

/-- The URL of the upload-stats call as the handler formats it. -/
def upstatURL (mid : String) : String :=
  "https://api.bilibili.com/x/space/upstat?mid=" ++ mid ++ "&jsonp=jsonp"

/-- The second half of `handler` (lines 126-173), after the first envelope
has been accepted. -/
def handlerUpstat (env : Env) (mid : String) (statResp : StatResp) (calls : List String) : Run :=
  let r := httpGet env (upstatURL mid) []
  match r.err with
  | .err e => ⟨calls ++ r.calls, sendErrorOf (.err e)⟩
  | .nil =>
    match env.unmarshalUpStat r.body with
    | .error e => ⟨calls ++ r.calls, sendErrorOf (.err e)⟩
    | .ok upStatResp =>
      -- `err` is the nil that `json.Unmarshal` returned
      if upStatResp.Code ≠ 0 then ⟨calls ++ r.calls, sendErrorOf .nil⟩
      else
        ⟨calls ++ r.calls, apiSendData
          [ ⟨fmtD statResp.Data.Follower, "a61"⟩,
            ⟨fmtD upStatResp.Data.Archive.View, "a2361"⟩,
            ⟨"3000", "i15732"⟩ ]⟩

/-- Go `handler`; `query` is `r.URL.Query()`. -/
def handler (env : Env) (query : Values) : Run :=
  let mid := TrimSpace (Values.Get query "mid")
  if mid = "" then ⟨[], apiSendError (-1) "mid empty"⟩
  else
    let r := httpGet env (statURL mid) []
    match r.err with
    | .err e => ⟨r.calls, sendErrorOf (.err e)⟩
    | .nil =>
      match env.unmarshalStat r.body with
      | .error e => ⟨r.calls, sendErrorOf (.err e)⟩
      | .ok statResp =>
        -- `err` is the nil that `json.Unmarshal` returned
        if statResp.Code ≠ 0 then ⟨r.calls, sendErrorOf .nil⟩
        else handlerUpstat env mid statResp r.calls

/-! ## The specification's view of the encoder -/

/-- The flattened key of a path `[s0, s1, ..., sn]`, in the words of the
specification: `s0` followed by `"[" + si + "]"` for each later segment. -/
def flatKey : List String → String
  | [] => ""
  | s0 :: rest => s0 ++ String.join (rest.map (fun s => "[" ++ s ++ "]"))

mutual
/-- The scalar leaves below a value that is reached by `path`, each with its
own path: map keys as they are, list positions as decimal indices. -/
def Value.leaves (v : Value) (path : List String) : List (List String × Scalar) :=
  match v with
  | .scalar s => [(path, s)]
  | .list xs => leavesList xs path 0
  | .map kvs => leavesMap kvs path
termination_by structural v
/-- The scalar leaves of the elements of a list, the first at index `i`. -/
def leavesList (xs : List Value) (path : List String) (i : Nat) : List (List String × Scalar) :=
  match xs with
  | [] => []
  | v :: rest => v.leaves (path ++ [fmtD i]) ++ leavesList rest path (i + 1)
termination_by structural xs
/-- The scalar leaves of the entries of a map. -/
def leavesMap (kvs : List (String × Value)) (path : List String) : List (List String × Scalar) :=
  match kvs with
  | [] => []
  | (k, v) :: rest => v.leaves (path ++ [k]) ++ leavesMap rest path
termination_by structural kvs
end

/-- The scalar leaves of a nested parameter map, in the order of traversal. -/
def scalarLeaves (raw : List (String × Value)) : List (List String × Scalar) := leavesMap raw []

/-- The flat entry of a leaf: its flattened key and the text of its scalar. -/
def leafEntry (l : List String × Scalar) : String × String := (flatKey l.1, fmtS l.2)

/-- The flat entries of the scalar leaves, in the order of traversal. -/
def leafEntries (raw : List (String × Value)) : FlatMap := (scalarLeaves raw).map leafEntry

/-- The map writes `p[k] = v` for the entries of a list, in order. -/
def setAll (p : FlatMap) (es : List (String × String)) : FlatMap :=
  es.foldl (fun p e => p.set e.1 e.2) p

mutual
/-- Every map inside the value passes the test `ok`. -/
def Value.allMaps (ok : List (String × Value) → Bool) (v : Value) : Bool :=
  match v with
  | .scalar _ => true
  | .list xs => allMapsList ok xs
  | .map kvs => ok kvs && allMapsMap ok kvs
termination_by structural v
/-- Every map inside the elements of a list passes the test. -/
def allMapsList (ok : List (String × Value) → Bool) (xs : List Value) : Bool :=
  match xs with
  | [] => true
  | v :: rest => v.allMaps ok && allMapsList ok rest
termination_by structural xs
/-- Every map inside the values of a map passes the test. -/
def allMapsMap (ok : List (String × Value) → Bool) (kvs : List (String × Value)) : Bool :=
  match kvs with
  | [] => true
  | (_, v) :: rest => v.allMaps ok && allMapsMap ok rest
termination_by structural kvs
end

/-- The keys of the map are pairwise distinct, as in every Go map. -/
def keysNodup (kvs : List (String × Value)) : Bool := decide (kvs.map Prod.fst).Nodup

/-- No key of the map contains the character `[`. -/
def keysNoOpen (kvs : List (String × Value)) : Bool := kvs.all (fun kv => !kv.1.data.contains '[')

/-- A nested parameter map is well formed when the keys of each of its maps
are pairwise distinct: the values a Go `map[string]interface{}` can hold. -/
def WellFormed (raw : List (String × Value)) : Prop := (Value.map raw).allMaps keysNodup = true

instance (raw : List (String × Value)) : Decidable (WellFormed raw) :=
  inferInstanceAs (Decidable (_ = true))

/-- No map key anywhere in the nested parameter map contains `[`. -/
def NoOpenBracket (raw : List (String × Value)) : Prop := (Value.map raw).allMaps keysNoOpen = true

instance (raw : List (String × Value)) : Decidable (NoOpenBracket raw) :=
  inferInstanceAs (Decidable (_ = true))

/-- The same nested value with the entries of its maps listed in another
order: what another iteration order of Go's maps makes of it. -/
inductive Reorder : Value → Value → Prop
  | refl (v : Value) : Reorder v v
  | trans {a b c : Value} : Reorder a b → Reorder b c → Reorder a c
  | perm {kvs kvs' : List (String × Value)} : kvs.Perm kvs' → Reorder (.map kvs) (.map kvs')
  | inMap {v v' : Value} (l : List (String × Value)) (k : String) (r : List (String × Value)) :
      Reorder v v' → Reorder (.map (l ++ (k, v) :: r)) (.map (l ++ (k, v') :: r))
  | inList {v v' : Value} (l r : List Value) :
      Reorder v v' → Reorder (.list (l ++ v :: r)) (.list (l ++ v' :: r))

/-- No segment of the path contains `[`. -/
def SegsNoOpen (path : List String) : Prop := ∀ s ∈ path, '[' ∉ s.data

/-- The characters that follow the first segment in a flattened key. -/
def bracketData (rest : List String) : List Char :=
  rest.flatMap (fun s => '[' :: (s.data ++ [']']))

/-- The map read `p[k]`; a missing key reads as the empty string. -/
def FlatMap.get (p : FlatMap) (k : String) : String :=
  match p with
  | [] => ""
  | (k', v) :: rest => if k' = k then v else FlatMap.get rest k

/-- One pair of the query string: the escaped key, `=`, the escaped value. -/
def pairText (k v : String) : String := QueryEscape k ++ "=" ++ QueryEscape v

/-- The flattened key of index `i` of a top-level list `k`: `k[i]`. -/
def indexKey (k : String) (i : Nat) : String := k ++ "[" ++ fmtD i ++ "]"

/-- The indices below `n` in the order in which `sort.Strings` puts their
keys `k[i]`. -/
def indexOrder (k : String) (n : Nat) : List Nat :=
  (List.range n).insertionSort (fun i j => strLE (indexKey k i) (indexKey k j))

/-- An upstream that answers every call; the two envelopes decode with the
codes given, a follower count of 5 and an archive view count of 7. -/
def answering (code1 code2 : Int) : Env where
  get := fun _ => .ok "body"
  unmarshalStat := fun _ => .ok ⟨⟨code1, "", 1⟩, ⟨1, 0, 0, 0, 5⟩⟩
  unmarshalUpStat := fun _ => .ok ⟨⟨code2, "", 1⟩, ⟨⟨7⟩, ⟨0⟩⟩⟩
  parseErrorText := fun _ => "parse: invalid URL"

/-- The text of a scalar in the words of the specification, "numbers,
strings, booleans converted to their canonical text form": a string is its
own text, an integer its decimal text, a boolean `true` or `false`; nil has
Go's default text `<nil>`. -/
def canonicalText : Scalar → String
  | .str s => s
  | .int n => fmtD n
  | .bool b => if b then "true" else "false"
  | .null => "<nil>"

/-- The number a list of decimal digits denotes. -/
def digitsValue (cs : List Char) : Nat := cs.foldl (fun a c => a * 10 + (c.toNat - 48)) 0


/-! ## Strings -/

theorem fmtD_nat (k : Nat) : fmtD k = Nat.repr k := rfl

theorem join_cons (a : String) (l : List String) : String.join (a :: l) = a ++ String.join l := by
  have h : ∀ (l : List String) (acc : String),
      List.foldl (fun r s => r ++ s) acc l = acc ++ String.join l := by
    intro l
    induction l with
    | nil => intro acc; simp [String.join]
    | cons b l ih =>
      intro acc
      simp only [String.join, List.foldl_cons]
      rw [ih, ih ("" ++ b)]
      simp [String.append_assoc]
  simp only [String.join, List.foldl_cons]
  rw [h, h]
  simp

theorem join_append (l r : List String) : String.join (l ++ r) = String.join l ++ String.join r := by
  induction l with
  | nil => simp [String.join]
  | cons a l ih => simp [join_cons, ih, String.append_assoc]

theorem enumFrom_map_bracket (rest : List String) (n : Nat) (hn : 0 < n) :
    (List.enumFrom n rest).map (fun mn => if mn.1 > 0 then "[" ++ mn.2 ++ "]" else mn.2)
      = rest.map (fun s => "[" ++ s ++ "]") := by
  induction rest generalizing n with
  | nil => rfl
  | cons a rest ih =>
    simp only [List.enumFrom_cons, List.map_cons]
    rw [ih (n + 1) (Nat.succ_pos n)]
    simp [hn]

theorem joinKeys_eq_flatKey (keys : List String) : joinKeys keys = flatKey keys := by
  cases keys with
  | nil => rfl
  | cons s0 rest =>
    simp only [joinKeys, flatKey, List.enum, List.enumFrom_cons, List.map_cons, join_cons]
    rw [enumFrom_map_bracket rest (0 + 1) (by decide)]
    simp

theorem flatKey_snoc (keys : List String) (k : String) (h : keys ≠ []) :
    flatKey (keys ++ [k]) = flatKey keys ++ "[" ++ k ++ "]" := by
  cases keys with
  | nil => exact absurd rfl h
  | cons s0 rest =>
    simp only [flatKey, List.cons_append, List.map_append, join_append, List.map_cons, List.map_nil,
      join_cons]
    simp [String.join, String.append_assoc]

theorem joinKeys_snoc (keys : List String) (k : String) (h : keys ≠ []) :
    joinKeys keys ++ "[" ++ k ++ "]" = flatKey (keys ++ [k]) := by
  rw [flatKey_snoc keys k h, joinKeys_eq_flatKey]

/-! ## The flat map -/

theorem setAll_append (p : FlatMap) (a b : List (String × String)) :
    setAll p (a ++ b) = setAll (setAll p a) b := by
  simp [setAll, List.foldl_append]

theorem setAll_nil (p : FlatMap) : setAll p [] = p := rfl

theorem setAll_singleton (p : FlatMap) (e : String × String) : setAll p [e] = p.set e.1 e.2 := rfl

/-! ## The traversal of the code writes the flat entries of the leaves -/

mutual
theorem parseKeyValueCase_eq (p : FlatMap) (k : String) (v : Value) (keys : List String)
    (h : keys ≠ []) :
    parseKeyValueCase p k v keys = setAll p ((v.leaves (keys ++ [k])).map leafEntry) := by
  cases v with
  | scalar s =>
    simp [parseKeyValueCase, Value.leaves, setAll, leafEntry, joinKeys_snoc keys k h]
  | list xs =>
    simp only [parseKeyValueCase, Value.leaves]
    exact parseNormalFrom_eq p xs (keys ++ [k]) 0 (by simp)
  | map kvs =>
    simp only [parseKeyValueCase, Value.leaves]
    exact parseKeyValue_eq p kvs (keys ++ [k]) (by simp)
termination_by structural v
theorem parseKeyValue_eq (p : FlatMap) (raw : List (String × Value)) (keys : List String)
    (h : keys ≠ []) :
    parseKeyValue p raw keys = setAll p ((leavesMap raw keys).map leafEntry) := by
  cases raw with
  | nil => simp [parseKeyValue, leavesMap, setAll]
  | cons kv rest =>
    obtain ⟨k, v⟩ := kv
    simp only [parseKeyValue, leavesMap, List.map_append, setAll_append]
    rw [parseKeyValueCase_eq p k v keys h, parseKeyValue_eq _ rest keys h]
termination_by structural raw
theorem parseNormalCase_eq (p : FlatMap) (k : Nat) (v : Value) (keys : List String)
    (h : keys ≠ []) :
    parseNormalCase p k v keys = setAll p ((v.leaves (keys ++ [fmtD k])).map leafEntry) := by
  cases v with
  | scalar s =>
    simp [parseNormalCase, Value.leaves, setAll, leafEntry, joinKeys_snoc keys (fmtD k) h]
  | list xs =>
    simp only [parseNormalCase, Value.leaves]
    exact parseNormalFrom_eq p xs (keys ++ [fmtD k]) 0 (by simp)
  | map kvs =>
    simp only [parseNormalCase, Value.leaves]
    exact parseKeyValue_eq p kvs (keys ++ [fmtD k]) (by simp)
termination_by structural v
theorem parseNormalFrom_eq (p : FlatMap) (raw : List Value) (keys : List String) (k : Nat)
    (h : keys ≠ []) :
    parseNormalFrom p raw keys k = setAll p ((leavesList raw keys k).map leafEntry) := by
  cases raw with
  | nil => simp [parseNormalFrom, leavesList, setAll]
  | cons v rest =>
    simp only [parseNormalFrom, leavesList, List.map_append, setAll_append]
    rw [parseNormalCase_eq p k v keys h, parseNormalFrom_eq _ rest keys (k + 1) h]
termination_by structural raw
end


theorem leaves_singleton_path (v : Value) (k : String) :
    v.leaves ([] ++ [k]) = v.leaves [k] := rfl

theorem buildLoop_eq (p : FlatMap) (raw : List (String × Value)) :
    buildLoop p raw = setAll p ((leavesMap raw []).map leafEntry) := by
  induction raw generalizing p with
  | nil => rfl
  | cons kv rest ih =>
    obtain ⟨k, v⟩ := kv
    cases v with
    | scalar s =>
      simp only [buildLoop, leavesMap, List.map_append, setAll_append, ih]
      simp [Value.leaves, setAll, leafEntry, flatKey, String.join]
    | list xs =>
      simp only [buildLoop, leavesMap, List.map_append, setAll_append, ih, parseNormal]
      rw [parseNormalFrom_eq p xs [k] 0 (by simp)]
      simp [Value.leaves]
    | map kvs =>
      simp only [buildLoop, leavesMap, List.map_append, setAll_append, ih]
      rw [parseKeyValue_eq p kvs [k] (by simp)]
      simp [Value.leaves]

theorem flatParams_eq_setAll (raw : List (String × Value)) :
    flatParams raw = setAll [] (leafEntries raw) := buildLoop_eq [] raw

theorem mem_keys_set (p : FlatMap) (k v key : String) :
    key ∈ (p.set k v).map Prod.fst ↔ key = k ∨ key ∈ p.map Prod.fst := by
  induction p with
  | nil => simp [FlatMap.set]
  | cons e rest ih =>
    obtain ⟨k', v'⟩ := e
    by_cases hk : k' = k
    · subst hk; simp [FlatMap.set]
    · simp only [FlatMap.set, hk, if_false, List.map_cons, List.mem_cons, ih]
      tauto

theorem mem_set (p : FlatMap) (k v : String) (e : String × String) (h : e ∈ p.set k v) :
    e = (k, v) ∨ e ∈ p := by
  induction p with
  | nil => simpa [FlatMap.set] using h
  | cons e' rest ih =>
    obtain ⟨k', v'⟩ := e'
    by_cases hk : k' = k
    · simp only [FlatMap.set, hk, if_true, List.mem_cons] at h
      rcases h with h | h
      · exact Or.inl h
      · exact Or.inr (List.mem_cons_of_mem _ h)
    · simp only [FlatMap.set, hk, if_false, List.mem_cons] at h
      rcases h with h | h
      · exact Or.inr (h ▸ List.mem_cons_self _ _)
      · rcases ih h with h | h
        · exact Or.inl h
        · exact Or.inr (List.mem_cons_of_mem _ h)

theorem nodup_keys_set (p : FlatMap) (k v : String) (h : (p.map Prod.fst).Nodup) :
    ((p.set k v).map Prod.fst).Nodup := by
  induction p with
  | nil => simp [FlatMap.set]
  | cons e rest ih =>
    obtain ⟨k', v'⟩ := e
    simp only [List.map_cons, List.nodup_cons] at h
    by_cases hk : k' = k
    · subst hk; simpa [FlatMap.set] using h
    · simp only [FlatMap.set, hk, if_false, List.map_cons, List.nodup_cons, mem_keys_set]
      refine ⟨?_, ih h.2⟩
      have h1 := h.1
      tauto

theorem set_fresh (p : FlatMap) (k v : String) (h : k ∉ p.map Prod.fst) :
    p.set k v = p ++ [(k, v)] := by
  induction p with
  | nil => rfl
  | cons e rest ih =>
    obtain ⟨k', v'⟩ := e
    simp only [List.map_cons, List.mem_cons, not_or] at h
    have hk : ¬ k' = k := fun hc => h.1 hc.symm
    simp [FlatMap.set, hk, ih h.2]

theorem mem_keys_setAll (es : List (String × String)) (p : FlatMap) (key : String) :
    key ∈ (setAll p es).map Prod.fst ↔ key ∈ p.map Prod.fst ∨ key ∈ es.map Prod.fst := by
  induction es generalizing p with
  | nil => simp [setAll]
  | cons e es ih =>
    have : setAll p (e :: es) = setAll (p.set e.1 e.2) es := rfl
    rw [this, ih, mem_keys_set]
    simp only [List.map_cons, List.mem_cons]
    tauto

theorem mem_setAll (es : List (String × String)) (p : FlatMap) (e : String × String)
    (h : e ∈ setAll p es) : e ∈ p ∨ e ∈ es := by
  induction es generalizing p with
  | nil => exact Or.inl h
  | cons e' es ih =>
    have : setAll p (e' :: es) = setAll (p.set e'.1 e'.2) es := rfl
    rw [this] at h
    rcases ih _ h with h | h
    · rcases mem_set p _ _ e h with h | h
      · exact Or.inr (h ▸ List.mem_cons_self _ _)
      · exact Or.inl h
    · exact Or.inr (List.mem_cons_of_mem _ h)

theorem nodup_keys_setAll (es : List (String × String)) (p : FlatMap)
    (h : (p.map Prod.fst).Nodup) : ((setAll p es).map Prod.fst).Nodup := by
  induction es generalizing p with
  | nil => exact h
  | cons e es ih => exact ih _ (nodup_keys_set p e.1 e.2 h)

theorem setAll_fresh (es : List (String × String)) (p : FlatMap)
    (h : (p.map Prod.fst ++ es.map Prod.fst).Nodup) : setAll p es = p ++ es := by
  induction es generalizing p with
  | nil => simp [setAll]
  | cons e es ih =>
    have hs : setAll p (e :: es) = setAll (p.set e.1 e.2) es := rfl
    have hfresh : e.1 ∉ p.map Prod.fst := by
      intro hc
      have := List.disjoint_of_nodup_append h hc
      exact this (by simp)
    rw [hs, set_fresh p e.1 e.2 hfresh, ih]
    · simp
    · simpa [List.map_append] using h

theorem flatParams_of_nodup (raw : List (String × Value))
    (h : ((leafEntries raw).map Prod.fst).Nodup) : flatParams raw = leafEntries raw := by
  rw [flatParams_eq_setAll, setAll_fresh _ _ (by simpa using h)]
  simp

theorem leavesMap_append (l r : List (String × Value)) (path : List String) :
    leavesMap (l ++ r) path = leavesMap l path ++ leavesMap r path := by
  induction l with
  | nil => simp [leavesMap]
  | cons kv l ih => obtain ⟨k, v⟩ := kv; simp [leavesMap, ih]

theorem leavesList_append (l r : List Value) (path : List String) (i : Nat) :
    leavesList (l ++ r) path i = leavesList l path i ++ leavesList r path (i + l.length) := by
  induction l generalizing i with
  | nil => simp [leavesList]
  | cons v l ih => simp [leavesList, ih, Nat.add_comm, Nat.add_left_comm]

/-! ## Sorting the keys -/

theorem sortStrings_sorted (keys : List String) : (sortStrings keys).Sorted strLE :=
  List.sorted_insertionSort strLE keys

theorem sortStrings_perm (keys : List String) : (sortStrings keys).Perm keys :=
  List.perm_insertionSort strLE keys

theorem sortStrings_eq_of_perm {a b : List String} (h : a.Perm b) :
    sortStrings a = sortStrings b :=
  List.eq_of_perm_of_sorted ((sortStrings_perm a).trans (h.trans (sortStrings_perm b).symm))
    (sortStrings_sorted a) (sortStrings_sorted b)

theorem sortStrings_strict (keys : List String) (h : keys.Nodup) :
    (sortStrings keys).Pairwise (fun a b => a.data < b.data) := by
  have hs := sortStrings_sorted keys
  have hn : (sortStrings keys).Nodup := (sortStrings_perm keys).nodup_iff.mpr h
  unfold List.Sorted at hs
  have := hs.and hn
  refine this.imp ?_
  intro a b hab
  rcases lt_or_eq_of_le hab.1 with h1 | h1
  · exact h1
  · exact absurd (String.ext h1) hab.2

/-! ## `Values.Encode` on a flat map -/

theorem values_add_fresh (d : Values) (k v : String) (h : k ∉ d.map Prod.fst) :
    Values.Add d k v = d ++ [(k, [v])] := by
  induction d with
  | nil => rfl
  | cons e rest ih =>
    obtain ⟨k', vs⟩ := e
    simp only [List.map_cons, List.mem_cons, not_or] at h
    have hk : ¬ k' = k := fun hc => h.1 hc.symm
    simp [Values.Add, hk, ih h.2]

theorem values_of_flat (es : FlatMap) (d : Values)
    (h : (d.map Prod.fst ++ es.map Prod.fst).Nodup) :
    es.foldl (fun data kv => Values.Add data kv.1 kv.2) d
      = d ++ es.map (fun e => (e.1, [e.2])) := by
  induction es generalizing d with
  | nil => simp
  | cons e es ih =>
    have hfresh : e.1 ∉ d.map Prod.fst := by
      intro hc
      exact List.disjoint_of_nodup_append h hc (by simp)
    simp only [List.foldl_cons]
    rw [values_add_fresh d e.1 e.2 hfresh, ih]
    · simp
    · simpa [List.map_append] using h

theorem values_lookup_flat (es : FlatMap) (k : String) (h : k ∈ es.map Prod.fst) :
    Values.lookup (es.map (fun e => (e.1, [e.2]))) k = [FlatMap.get es k] := by
  induction es with
  | nil => simp at h
  | cons e es ih =>
    obtain ⟨k', v⟩ := e
    by_cases hk : k' = k
    · simp [Values.lookup, FlatMap.get, hk]
    · simp only [List.map_cons, List.mem_cons] at h
      have h2 : k ∈ es.map Prod.fst := by
        rcases h with h | h
        · exact absurd h.symm hk
        · exact h
      simp [Values.lookup, FlatMap.get, hk, ih h2]

theorem pairText_length_pos (k v : String) : 0 < (pairText k v).length := by
  simp [pairText, String.length_append]
  have : ("=" : String).length = 1 := rfl
  omega

theorem encode_go (get : String → String) (ks : List String) (acc : String)
    (hacc : 0 < acc.length) :
    ks.foldl (fun buf k => encodeKey buf k [get k]) acc
      = String.intercalate.go acc "&" (ks.map (fun k => pairText k (get k))) := by
  induction ks generalizing acc with
  | nil => simp [String.intercalate.go]
  | cons k ks ih =>
    simp only [List.foldl_cons, List.map_cons, String.intercalate.go]
    have h1 : encodeKey acc k [get k] = acc ++ "&" ++ pairText k (get k) := by
      simp [encodeKey, hacc, pairText, String.append_assoc]
    rw [h1, ih]
    simp only [String.length_append]
    omega

theorem encode_intercalate (get : String → String) (ks : List String) :
    ks.foldl (fun buf k => encodeKey buf k [get k]) ""
      = "&".intercalate (ks.map (fun k => pairText k (get k))) := by
  cases ks with
  | nil => rfl
  | cons k ks =>
    simp only [List.foldl_cons, List.map_cons, String.intercalate]
    have h1 : encodeKey "" k [get k] = pairText k (get k) := by
      simp [encodeKey, pairText]
    rw [h1, encode_go get ks _ (pairText_length_pos _ _)]

theorem foldl_congr_mem {α β : Type} (f g : β → α → β) (l : List α) (b : β)
    (h : ∀ a ∈ l, ∀ b, f b a = g b a) : l.foldl f b = l.foldl g b := by
  induction l generalizing b with
  | nil => rfl
  | cons a l ih =>
    simp only [List.foldl_cons]
    rw [h a (List.mem_cons_self _ _), ih]
    intro a' ha'
    exact h a' (List.mem_cons_of_mem _ ha')

theorem encodeParams_eq (es : FlatMap) (h : (es.map Prod.fst).Nodup) :
    encodeParams es = "&".intercalate
      ((sortStrings (es.map Prod.fst)).map (fun k => pairText k (FlatMap.get es k))) := by
  unfold encodeParams Values.Encode
  rw [values_of_flat es [] (by simpa using h)]
  simp only [List.nil_append, List.map_map]
  have hk : (Prod.fst ∘ fun e : String × String => (e.1, [e.2])) = Prod.fst := rfl
  rw [hk, ← encode_intercalate]
  apply foldl_congr_mem
  intro k hkmem buf
  rw [values_lookup_flat es k ((sortStrings_perm _).mem_iff.mp hkmem)]

theorem flatMap_get_perm {a b : FlatMap} (hp : a.Perm b) (h : (a.map Prod.fst).Nodup)
    (k : String) : FlatMap.get a k = FlatMap.get b k := by
  induction hp with
  | nil => rfl
  | cons e _ ih =>
    simp only [List.map_cons, List.nodup_cons] at h
    obtain ⟨k', v⟩ := e
    simp [FlatMap.get, ih h.2]
  | swap e1 e2 l =>
    obtain ⟨k1, v1⟩ := e1
    obtain ⟨k2, v2⟩ := e2
    simp only [List.map_cons, List.nodup_cons, List.mem_cons, not_or] at h
    simp only [FlatMap.get]
    by_cases h1 : k1 = k <;> by_cases h2 : k2 = k
    · exact absurd (h2.trans h1.symm) h.1.1
    · simp [h1, h2]
    · simp [h1, h2]
    · simp [h1, h2]
  | trans h1 _ ih1 ih2 =>
    exact (ih1 h).trans (ih2 ((h1.map Prod.fst).nodup_iff.mp h))

theorem encodeParams_perm {a b : FlatMap} (hp : a.Perm b) (h : (a.map Prod.fst).Nodup) :
    encodeParams a = encodeParams b := by
  have hb : (b.map Prod.fst).Nodup := (hp.map Prod.fst).nodup_iff.mp h
  rw [encodeParams_eq a h, encodeParams_eq b hb, sortStrings_eq_of_perm (hp.map Prod.fst)]
  have hg : (fun k => pairText k (FlatMap.get a k)) = (fun k => pairText k (FlatMap.get b k)) :=
    funext fun k => by rw [flatMap_get_perm hp h k]
  rw [hg]

/-! ## Another iteration order permutes the leaves -/

theorem leavesMap_perm {kvs kvs' : List (String × Value)} (h : kvs.Perm kvs')
    (path : List String) : (leavesMap kvs path).Perm (leavesMap kvs' path) := by
  induction h with
  | nil => exact List.Perm.refl _
  | cons e _ ih =>
    obtain ⟨k, v⟩ := e
    simp only [leavesMap]
    exact List.Perm.append_left _ ih
  | swap e1 e2 l =>
    obtain ⟨k1, v1⟩ := e1
    obtain ⟨k2, v2⟩ := e2
    simp only [leavesMap, ← List.append_assoc]
    exact List.Perm.append_right _ List.perm_append_comm
  | trans _ _ ih1 ih2 => exact ih1.trans ih2

theorem reorder_leaves_perm {a b : Value} (h : Reorder a b) :
    ∀ path : List String, (a.leaves path).Perm (b.leaves path) := by
  induction h with
  | refl v => intro path; exact List.Perm.refl _
  | trans _ _ ih1 ih2 => intro path; exact (ih1 path).trans (ih2 path)
  | perm hp => intro path; simpa [Value.leaves] using leavesMap_perm hp path
  | inMap l k r _ ih =>
    intro path
    simp only [Value.leaves, leavesMap_append, leavesMap]
    exact List.Perm.append_left _ (List.Perm.append_right _ (ih _))
  | inList l r _ ih =>
    intro path
    simp only [Value.leaves, leavesList_append, leavesList]
    exact List.Perm.append_left _ (List.Perm.append_right _ (ih _))

theorem scalarLeaves_perm {raw raw' : List (String × Value)}
    (h : Reorder (.map raw) (.map raw')) : (scalarLeaves raw).Perm (scalarLeaves raw') := by
  have := reorder_leaves_perm h []
  simpa [Value.leaves, scalarLeaves] using this

theorem leafEntries_keys (raw : List (String × Value)) :
    (leafEntries raw).map Prod.fst = (scalarLeaves raw).map (fun l => flatKey l.1) := by
  simp [leafEntries, leafEntry, Function.comp_def]

/-! ## Decimal text -/

theorem digitChar_value (m : Nat) (h : m < 10) : (Nat.digitChar m).toNat - 48 = m := by
  interval_cases m <;> rfl

theorem digitChar_ne_open (m : Nat) (h : m < 10) : Nat.digitChar m ≠ '[' := by
  interval_cases m <;> decide

theorem toDigitsCore_value (fuel : Nat) : ∀ (n : Nat) (ds : List Char), n < fuel →
    List.foldl (fun a c => a * 10 + (c.toNat - 48)) 0 (Nat.toDigitsCore 10 fuel n ds)
      = List.foldl (fun a c => a * 10 + (c.toNat - 48)) n ds := by
  induction fuel with
  | zero => intro n ds h; omega
  | succ fuel ih =>
    intro n ds h
    simp only [Nat.toDigitsCore]
    split
    · rename_i h0
      simp only [List.foldl_cons]
      rw [digitChar_value _ (Nat.mod_lt _ (by decide))]
      have : n % 10 = n := by omega
      simp [this]
    · rename_i h0
      rw [ih (n / 10) _ (by omega)]
      simp only [List.foldl_cons]
      rw [digitChar_value _ (Nat.mod_lt _ (by decide))]
      have : n / 10 * 10 + n % 10 = n := by omega
      rw [this]

theorem digitsValue_repr (n : Nat) : digitsValue (Nat.repr n).data = n := by
  simp only [digitsValue, Nat.repr, Nat.toDigits, List.asString]
  rw [toDigitsCore_value (n + 1) n [] (Nat.lt_succ_self n)]
  rfl

theorem fmtD_nat_inj {i j : Nat} (h : fmtD i = fmtD j) : i = j := by
  rw [fmtD_nat, fmtD_nat] at h
  have := congrArg (fun s => digitsValue s.data) h
  simpa [digitsValue_repr] using this

theorem toDigitsCore_no_open (fuel : Nat) : ∀ (n : Nat) (ds : List Char), '[' ∉ ds →
    '[' ∉ Nat.toDigitsCore 10 fuel n ds := by
  induction fuel with
  | zero => intro n ds h; simpa [Nat.toDigitsCore] using h
  | succ fuel ih =>
    intro n ds h
    have hd : '[' ∉ Nat.digitChar (n % 10) :: ds := by
      simp only [List.mem_cons, not_or]
      exact ⟨fun hc => digitChar_ne_open _ (Nat.mod_lt _ (by decide)) hc.symm, h⟩
    simp only [Nat.toDigitsCore]
    split
    · exact hd
    · exact ih _ _ hd

theorem fmtD_nat_no_open (i : Nat) : '[' ∉ (fmtD i).data := by
  rw [fmtD_nat]
  simp only [Nat.repr, Nat.toDigits, List.asString]
  exact toDigitsCore_no_open _ _ _ (by simp)

/-! ## The paths of the leaves -/

mutual
theorem leaves_path_starts (v : Value) (path : List String) :
    ∀ l ∈ v.leaves path, path <+: l.1 := by
  cases v with
  | scalar s => intro l hl; simp [Value.leaves] at hl; subst hl; exact List.prefix_refl _
  | list xs =>
    intro l hl
    simp only [Value.leaves] at hl
    obtain ⟨j, _, hj⟩ := leavesList_path_starts xs path 0 l hl
    exact (List.prefix_append _ _).trans hj
  | map kvs =>
    intro l hl
    simp only [Value.leaves] at hl
    obtain ⟨k, _, hk⟩ := leavesMap_path_starts kvs path l hl
    exact (List.prefix_append _ _).trans hk
termination_by structural v
theorem leavesList_path_starts (xs : List Value) (path : List String) (i : Nat) :
    ∀ l ∈ leavesList xs path i, ∃ j, i ≤ j ∧ (path ++ [fmtD j]) <+: l.1 := by
  cases xs with
  | nil => intro l hl; simp [leavesList] at hl
  | cons v rest =>
    intro l hl
    simp only [leavesList, List.mem_append] at hl
    rcases hl with hl | hl
    · exact ⟨i, Nat.le_refl i, leaves_path_starts v _ l hl⟩
    · obtain ⟨j, hj, hp⟩ := leavesList_path_starts rest path (i + 1) l hl
      exact ⟨j, by omega, hp⟩
termination_by structural xs
theorem leavesMap_path_starts (kvs : List (String × Value)) (path : List String) :
    ∀ l ∈ leavesMap kvs path, ∃ k ∈ kvs.map Prod.fst, (path ++ [k]) <+: l.1 := by
  cases kvs with
  | nil => intro l hl; simp [leavesMap] at hl
  | cons kv rest =>
    obtain ⟨k, v⟩ := kv
    intro l hl
    simp only [leavesMap, List.mem_append] at hl
    rcases hl with hl | hl
    · exact ⟨k, by simp, leaves_path_starts v _ l hl⟩
    · obtain ⟨k', hk', hp⟩ := leavesMap_path_starts rest path l hl
      exact ⟨k', by simp [hk'], hp⟩
termination_by structural kvs
end

theorem snoc_segment_unique {path p : List String} {a b : String}
    (ha : (path ++ [a]) <+: p) (hb : (path ++ [b]) <+: p) : a = b := by
  obtain ⟨t1, h1⟩ := ha
  obtain ⟨t2, h2⟩ := hb
  rw [← h2] at h1
  simp only [List.append_assoc, List.singleton_append] at h1
  have := List.append_cancel_left h1
  exact (List.cons.inj this).1

mutual
theorem leaves_nodup (v : Value) (h : v.allMaps keysNodup = true) (path : List String) :
    ((v.leaves path).map Prod.fst).Nodup := by
  cases v with
  | scalar s => simp [Value.leaves]
  | list xs =>
    simp only [Value.allMaps] at h
    simp only [Value.leaves]
    exact leavesList_nodup xs h path 0
  | map kvs =>
    simp only [Value.allMaps, Bool.and_eq_true] at h
    simp only [Value.leaves]
    exact leavesMap_nodup kvs h.2 (by simpa [keysNodup] using h.1) path
termination_by structural v
theorem leavesList_nodup (xs : List Value) (h : allMapsList keysNodup xs = true)
    (path : List String) (i : Nat) : ((leavesList xs path i).map Prod.fst).Nodup := by
  cases xs with
  | nil => simp [leavesList]
  | cons v rest =>
    simp only [allMapsList, Bool.and_eq_true] at h
    simp only [leavesList, List.map_append]
    refine List.Nodup.append (leaves_nodup v h.1 _) (leavesList_nodup rest h.2 path (i + 1)) ?_
    intro p hp1 hp2
    obtain ⟨l1, hl1, rfl⟩ := List.mem_map.mp hp1
    obtain ⟨l2, hl2, he⟩ := List.mem_map.mp hp2
    have h1 := leaves_path_starts v _ l1 hl1
    obtain ⟨j, hj, h2⟩ := leavesList_path_starts rest path (i + 1) l2 hl2
    rw [he] at h2
    have := fmtD_nat_inj (snoc_segment_unique h1 h2)
    omega
termination_by structural xs
theorem leavesMap_nodup (kvs : List (String × Value)) (h : allMapsMap keysNodup kvs = true)
    (hk : (kvs.map Prod.fst).Nodup) (path : List String) :
    ((leavesMap kvs path).map Prod.fst).Nodup := by
  cases kvs with
  | nil => simp [leavesMap]
  | cons kv rest =>
    obtain ⟨k, v⟩ := kv
    simp only [allMapsMap, Bool.and_eq_true] at h
    simp only [List.map_cons, List.nodup_cons] at hk
    simp only [leavesMap, List.map_append]
    refine List.Nodup.append (leaves_nodup v h.1 _) (leavesMap_nodup rest h.2 hk.2 path) ?_
    intro p hp1 hp2
    obtain ⟨l1, hl1, rfl⟩ := List.mem_map.mp hp1
    obtain ⟨l2, hl2, he⟩ := List.mem_map.mp hp2
    have h1 := leaves_path_starts v _ l1 hl1
    obtain ⟨k', hk', h2⟩ := leavesMap_path_starts rest path l2 hl2
    rw [he] at h2
    have := snoc_segment_unique h1 h2
    exact hk.1 (this ▸ hk')
termination_by structural kvs
end

theorem segsNoOpen_snoc {path : List String} {k : String} (hp : SegsNoOpen path)
    (hk : '[' ∉ k.data) : SegsNoOpen (path ++ [k]) := by
  intro s hs
  rcases List.mem_append.mp hs with hs | hs
  · exact hp s hs
  · simp at hs; subst hs; exact hk

mutual
theorem leaves_noOpen (v : Value) (h : v.allMaps keysNoOpen = true) (path : List String)
    (hp : SegsNoOpen path) : ∀ l ∈ v.leaves path, SegsNoOpen l.1 := by
  cases v with
  | scalar s => intro l hl; simp [Value.leaves] at hl; subst hl; exact hp
  | list xs =>
    simp only [Value.allMaps] at h
    simp only [Value.leaves]
    exact leavesList_noOpen xs h path hp 0
  | map kvs =>
    simp only [Value.allMaps, Bool.and_eq_true] at h
    simp only [Value.leaves]
    exact leavesMap_noOpen kvs h.2 (by simpa [keysNoOpen] using h.1) path hp
termination_by structural v
theorem leavesList_noOpen (xs : List Value) (h : allMapsList keysNoOpen xs = true)
    (path : List String) (hp : SegsNoOpen path) (i : Nat) :
    ∀ l ∈ leavesList xs path i, SegsNoOpen l.1 := by
  cases xs with
  | nil => intro l hl; simp [leavesList] at hl
  | cons v rest =>
    simp only [allMapsList, Bool.and_eq_true] at h
    intro l hl
    simp only [leavesList, List.mem_append] at hl
    rcases hl with hl | hl
    · exact leaves_noOpen v h.1 _ (segsNoOpen_snoc hp (fmtD_nat_no_open i)) l hl
    · exact leavesList_noOpen rest h.2 path hp (i + 1) l hl
termination_by structural xs
theorem leavesMap_noOpen (kvs : List (String × Value)) (h : allMapsMap keysNoOpen kvs = true)
    (hk : ∀ kv ∈ kvs, '[' ∉ kv.1.data) (path : List String) (hp : SegsNoOpen path) :
    ∀ l ∈ leavesMap kvs path, SegsNoOpen l.1 := by
  cases kvs with
  | nil => intro l hl; simp [leavesMap] at hl
  | cons kv rest =>
    obtain ⟨k, v⟩ := kv
    simp only [allMapsMap, Bool.and_eq_true] at h
    intro l hl
    simp only [leavesMap, List.mem_append] at hl
    rcases hl with hl | hl
    · exact leaves_noOpen v h.1 _ (segsNoOpen_snoc hp (hk (k, v) (by simp))) l hl
    · exact leavesMap_noOpen rest h.2 (fun kv hkv => hk kv (List.mem_cons_of_mem _ hkv)) path hp
        l hl
termination_by structural kvs
end

/-! ## Flattened keys of bracket-free segments are distinct -/

theorem join_data (l : List String) : (String.join l).data = l.flatMap String.data := by
  induction l with
  | nil => rfl
  | cons a l ih => simp only [join_cons, String.data_append, ih, List.flatMap_cons]

theorem flatKey_data (s0 : String) (rest : List String) :
    (flatKey (s0 :: rest)).data = s0.data ++ bracketData rest := by
  simp only [flatKey, String.data_append, join_data, bracketData]
  congr 1
  induction rest with
  | nil => rfl
  | cons a l ih => simp [ih]

theorem split_at_open : ∀ (a b X Y : List Char), '[' ∉ a → '[' ∉ b →
    (∀ c ∈ X.head?, c = '[') → (∀ c ∈ Y.head?, c = '[') → a ++ X = b ++ Y → a = b ∧ X = Y := by
  intro a
  induction a with
  | nil =>
    intro b X Y _ hb hX _ h
    cases b with
    | nil => exact ⟨rfl, by simpa using h⟩
    | cons d b =>
      simp only [List.nil_append] at h
      subst h
      have := hX d (by simp)
      subst this
      simp at hb
  | cons c a ih =>
    intro b X Y ha hb hX hY h
    cases b with
    | nil =>
      simp only [List.nil_append] at h
      subst h
      have := hY c (by simp)
      subst this
      simp at ha
    | cons d b =>
      simp only [List.cons_append, List.cons.injEq] at h
      simp only [List.mem_cons, not_or] at ha hb
      obtain ⟨h1, h2⟩ := ih b X Y ha.2 hb.2 hX hY h.2
      exact ⟨by rw [h.1, h1], h2⟩

theorem bracketData_head (rest : List String) : ∀ c ∈ (bracketData rest).head?, c = '[' := by
  cases rest with
  | nil => simp [bracketData]
  | cons a l => simp [bracketData]

theorem bracketData_inj : ∀ (r1 r2 : List String), SegsNoOpen r1 → SegsNoOpen r2 →
    bracketData r1 = bracketData r2 → r1 = r2 := by
  intro r1
  induction r1 with
  | nil =>
    intro r2 _ _ h
    cases r2 with
    | nil => rfl
    | cons s r2 => simp [bracketData] at h
  | cons s1 r1 ih =>
    intro r2 h1 h2 h
    cases r2 with
    | nil => simp [bracketData] at h
    | cons s2 r2 =>
      have e1 : bracketData (s1 :: r1) = '[' :: ((s1.data ++ [']']) ++ bracketData r1) := by
        simp [bracketData]
      have e2 : bracketData (s2 :: r2) = '[' :: ((s2.data ++ [']']) ++ bracketData r2) := by
        simp [bracketData]
      rw [e1, e2] at h
      have h' := (List.cons.inj h).2
      have n1 : '[' ∉ s1.data ++ [']'] := by
        have := h1 s1 (by simp)
        simp [this]
      have n2 : '[' ∉ s2.data ++ [']'] := by
        have := h2 s2 (by simp)
        simp [this]
      obtain ⟨hs, hr⟩ := split_at_open _ _ _ _ n1 n2 (bracketData_head r1) (bracketData_head r2) h'
      have hs' : s1 = s2 := String.ext (List.append_cancel_right hs)
      have hr' : r1 = r2 := ih r2 (fun s hs => h1 s (List.mem_cons_of_mem _ hs))
        (fun s hs => h2 s (List.mem_cons_of_mem _ hs)) hr
      rw [hs', hr']

theorem flatKey_inj {p1 p2 : List String} (n1 : p1 ≠ []) (n2 : p2 ≠ [])
    (h1 : SegsNoOpen p1) (h2 : SegsNoOpen p2) (h : flatKey p1 = flatKey p2) : p1 = p2 := by
  cases p1 with
  | nil => exact absurd rfl n1
  | cons s1 r1 =>
    cases p2 with
    | nil => exact absurd rfl n2
    | cons s2 r2 =>
      have hd := congrArg String.data h
      rw [flatKey_data, flatKey_data] at hd
      obtain ⟨hs, hr⟩ := split_at_open _ _ _ _ (h1 s1 (by simp)) (h2 s2 (by simp))
        (bracketData_head r1) (bracketData_head r2) hd
      have hr' := bracketData_inj r1 r2 (fun s hs => h1 s (List.mem_cons_of_mem _ hs))
        (fun s hs => h2 s (List.mem_cons_of_mem _ hs)) hr
      rw [String.ext hs, hr']

theorem scalarLeaves_path_ne_nil (raw : List (String × Value)) :
    ∀ l ∈ scalarLeaves raw, l.1 ≠ [] := by
  intro l hl hnil
  obtain ⟨k, _, hk⟩ := leavesMap_path_starts raw [] l hl
  rw [hnil] at hk
  simp at hk

theorem scalarLeaves_noOpen (raw : List (String × Value)) (h : NoOpenBracket raw) :
    ∀ l ∈ scalarLeaves raw, SegsNoOpen l.1 := by
  have := leaves_noOpen (.map raw) h [] (by intro s hs; simp at hs)
  simp only [Value.leaves] at this
  exact this

theorem scalarLeaves_paths_nodup (raw : List (String × Value)) (h : WellFormed raw) :
    ((scalarLeaves raw).map Prod.fst).Nodup := by
  have := leaves_nodup (.map raw) h []
  simp only [Value.leaves] at this
  exact this

theorem leaf_keys_nodup (raw : List (String × Value)) (hwf : WellFormed raw)
    (hno : NoOpenBracket raw) : ((scalarLeaves raw).map (fun l => flatKey l.1)).Nodup := by
  have h1 := scalarLeaves_paths_nodup raw hwf
  have : (scalarLeaves raw).map (fun l => flatKey l.1)
      = ((scalarLeaves raw).map Prod.fst).map flatKey := by simp [Function.comp_def]
  rw [this]
  refine List.Nodup.map_on ?_ h1
  intro p1 hp1 p2 hp2 he
  obtain ⟨l1, hl1, rfl⟩ := List.mem_map.mp hp1
  obtain ⟨l2, hl2, rfl⟩ := List.mem_map.mp hp2
  exact flatKey_inj (scalarLeaves_path_ne_nil raw l1 hl1) (scalarLeaves_path_ne_nil raw l2 hl2)
    (scalarLeaves_noOpen raw hno l1 hl1) (scalarLeaves_noOpen raw hno l2 hl2) he

/-! ## A top-level list of scalars -/

theorem flatMap_get_of_mem (es : FlatMap) (h : (es.map Prod.fst).Nodup) (k v : String)
    (hm : (k, v) ∈ es) : FlatMap.get es k = v := by
  induction es with
  | nil => simp at hm
  | cons e es ih =>
    obtain ⟨k', v'⟩ := e
    simp only [List.map_cons, List.nodup_cons] at h
    simp only [List.mem_cons, Prod.mk.injEq] at hm
    rcases hm with hm | hm
    · simp [FlatMap.get, hm.1, hm.2]
    · have hne : ¬ k' = k := by
        intro hc
        apply h.1
        rw [hc]
        exact List.mem_map.mpr ⟨(k, v), hm, rfl⟩
      simp [FlatMap.get, hne, ih h.2 hm]

theorem leavesList_scalars (vs : List Scalar) (path : List String) (i : Nat) :
    leavesList (vs.map Value.scalar) path i
      = (List.range vs.length).map (fun j => (path ++ [fmtD ((i + j : Nat) : Int)], vs.getD j .null)) := by
  induction vs generalizing i with
  | nil => simp [leavesList]
  | cons s rest ih =>
    simp only [List.map_cons, leavesList, Value.leaves, ih, List.length_cons,
      List.range_succ_eq_map, List.map_cons, List.map_map, List.singleton_append]
    refine congrArg₂ _ (by simp) ?_
    apply List.map_congr_left
    intro j _
    simp only [Function.comp, Nat.succ_eq_add_one, List.getD_cons_succ]
    have : i + 1 + j = i + (j + 1) := by omega
    rw [this]

theorem leafEntries_list (k : String) (vs : List Scalar) :
    leafEntries [(k, .list (vs.map .scalar))]
      = (List.range vs.length).map (fun i => (indexKey k i, fmtS (vs.getD i .null))) := by
  simp only [leafEntries, scalarLeaves, leavesMap, Value.leaves, List.append_nil,
    List.nil_append, leavesList_scalars, List.map_map]
  apply List.map_congr_left
  intro j _
  simp [leafEntry, indexKey, flatKey, join_cons, String.join, String.append_assoc]

theorem indexKey_inj (k : String) {i j : Nat} (h : indexKey k i = indexKey k j) : i = j := by
  have hd := congrArg String.data h
  simp only [indexKey, String.data_append] at hd
  have h1 := List.append_cancel_right hd
  have h2 := List.append_cancel_left h1
  exact fmtD_nat_inj (String.ext h2)

theorem indexKey_lt_of_digits (k : String) {i j : Nat} (hij : i < j) (hj : j < 10) :
    (indexKey k i).data < (indexKey k j).data := by
  have key : ∀ a : Fin 10, ∀ b : Fin 10, a < b →
      ('[' :: ((toString (a : Nat)).data ++ [']'])) < ('[' :: ((toString (b : Nat)).data ++ [']'])) := by
    decide
  have := key ⟨i, by omega⟩ ⟨j, hj⟩ hij
  simp only [indexKey, String.data_append, List.append_assoc]
  exact List.Lex.append_left _ this k.data

theorem indexOrder_perm (k : String) (n : Nat) : (indexOrder k n).Perm (List.range n) :=
  List.perm_insertionSort _ _

theorem indexOrder_sorted (k : String) (n : Nat) :
    ((indexOrder k n).map (indexKey k)).Sorted strLE := by
  haveI : IsTotal Nat (fun i j => strLE (indexKey k i) (indexKey k j)) :=
    ⟨fun a b => le_total (indexKey k a).data (indexKey k b).data⟩
  haveI : IsTrans Nat (fun i j => strLE (indexKey k i) (indexKey k j)) :=
    ⟨fun _ _ _ h1 h2 => le_trans h1 h2⟩
  have := List.sorted_insertionSort (fun i j => strLE (indexKey k i) (indexKey k j)) (List.range n)
  exact List.pairwise_map.mpr this

theorem sortStrings_indexKeys (k : String) (n : Nat) :
    sortStrings ((List.range n).map (indexKey k)) = (indexOrder k n).map (indexKey k) :=
  List.eq_of_perm_of_sorted
    ((sortStrings_perm _).trans ((indexOrder_perm k n).map (indexKey k)).symm)
    (sortStrings_sorted _) (indexOrder_sorted k n)

theorem indexOrder_small (k : String) (n : Nat) (h : n ≤ 10) : indexOrder k n = List.range n := by
  apply List.Sorted.insertionSort_eq
  refine List.Pairwise.imp_of_mem ?_ (List.pairwise_lt_range n)
  intro a b _ hb hab
  have hb' : b < n := List.mem_range.mp hb
  exact le_of_lt (indexKey_lt_of_digits k hab (by omega))

theorem build_list_eq (k : String) (vs : List Scalar) :
    build [(k, .list (vs.map .scalar))] = "&".intercalate
      ((indexOrder k vs.length).map (fun i => pairText (indexKey k i) (fmtS (vs.getD i .null)))) := by
  have hkeys : (leafEntries [(k, .list (vs.map .scalar))]).map Prod.fst
      = (List.range vs.length).map (indexKey k) := by
    rw [leafEntries_list]; simp [Function.comp_def]
  have hnd : ((leafEntries [(k, .list (vs.map .scalar))]).map Prod.fst).Nodup := by
    rw [hkeys]
    exact List.Nodup.map_on (fun _ _ _ _ h => indexKey_inj k h) (List.nodup_range _)
  rw [build, flatParams_of_nodup _ hnd, encodeParams_eq _ hnd, hkeys, sortStrings_indexKeys,
    List.map_map]
  congr 1
  apply List.map_congr_left
  intro i hi
  have hi' : i < vs.length := List.mem_range.mp ((indexOrder_perm k _).mem_iff.mp hi)
  simp only [Function.comp]
  rw [flatMap_get_of_mem _ hnd (indexKey k i) (fmtS (vs.getD i .null))]
  rw [leafEntries_list]
  exact List.mem_map.mpr ⟨i, List.mem_range.mpr hi', rfl⟩

/-! ## The handler -/

theorem trimSpace_blank (s : String) (h : ∀ c ∈ s.data, isSpace c = true) : TrimSpace s = "" := by
  have : s.data.dropWhile isSpace = [] := List.dropWhile_eq_nil_iff.mpr h
  simp [TrimSpace, this]

theorem get_absent (query : Values) (key : String) (h : Values.lookup query key = []) :
    Values.Get query key = "" := by
  simp [Values.Get, h]

theorem build_nil : build [] = "" := by decide

theorem rawQuery_ne_empty (Q W R : List Char) (hQ1 : '#' ∉ Q) (hQ2 : '?' ∉ Q)
    (hW1 : '#' ∉ W) (hW : W ≠ []) (info : URL)
    (h : urlParse (String.mk (Q ++ '?' :: (W ++ R))) = some info) : info.RawQuery ≠ "" := by
  have hu : List.takeWhile (fun c => c != '#') (Q ++ '?' :: (W ++ R))
      = (Q ++ '?' :: W) ++ List.takeWhile (fun c => c != '#') R := by
    have e : Q ++ '?' :: (W ++ R) = (Q ++ '?' :: W) ++ R := by simp
    rw [e]
    apply List.takeWhile_append_of_pos
    intro a ha
    simp only [List.mem_append, List.mem_cons] at ha
    rcases ha with ha | ha | ha
    · simp only [bne_iff_ne, ne_eq]; intro hc; exact hQ1 (hc ▸ ha)
    · subst ha; decide
    · simp only [bne_iff_ne, ne_eq]; intro hc; exact hW1 (hc ▸ ha)
  generalize hT : List.takeWhile (fun c => c != '#') R = T at hu
  have hdrop : List.dropWhile (fun c => c != '?') ((Q ++ '?' :: W) ++ T) = '?' :: (W ++ T) := by
    have e : (Q ++ '?' :: W) ++ T = Q ++ ('?' :: (W ++ T)) := by simp
    rw [e, List.dropWhile_append_of_pos]
    · simp [List.dropWhile]
    · intro a ha
      simp only [bne_iff_ne, ne_eq]; intro hc; exact hQ2 (hc ▸ ha)
  have hcond : ¬ (((Q ++ '?' :: W) ++ T).getLast? = some '?' ∧ ((Q ++ '?' :: W) ++ T).count '?' = 1) := by
    rintro ⟨hl, hc⟩
    have e : (Q ++ '?' :: W) ++ T = (Q ++ ['?']) ++ (W ++ T) := by simp
    rw [e] at hl hc
    rw [List.getLast?_append_of_ne_nil _ (by simp [hW])] at hl
    have hmem : '?' ∈ W ++ T := List.mem_of_getLast?_eq_some hl
    have hcnt : 0 < List.count '?' (W ++ T) := List.count_pos_iff.mpr hmem
    rw [List.count_append, List.count_append] at hc
    have : List.count '?' ['?'] = 1 := by decide
    omega
  unfold urlParse at h
  simp only [hu] at h
  split at h
  · exact absurd h (by simp)
  · split at h
    · exact absurd h (by simp)
    · split at h
      · rename_i hc
        simp only [Bool.and_eq_true, decide_eq_true_eq] at hc
        exact absurd hc hcond
      · simp only [hdrop, Option.some.injEq] at h
        subst h
        intro hc
        have := congrArg String.data hc
        simp at this
        exact hW this.1

theorem statURL_rawQuery (mid : String) (info : URL) (h : urlParse (statURL mid) = some info) :
    info.RawQuery ≠ "" := by
  have e : statURL mid = String.mk ("https://api.bilibili.com/x/relation/stat".data ++
      '?' :: ("vmid=".data ++ (mid.data ++ "&jsonp=jsonp".data))) := rfl
  rw [e] at h
  exact rawQuery_ne_empty _ _ _ (by decide) (by decide) (by decide) (by decide) info h

theorem upstatURL_rawQuery (mid : String) (info : URL)
    (h : urlParse (upstatURL mid) = some info) : info.RawQuery ≠ "" := by
  have e : upstatURL mid = String.mk ("https://api.bilibili.com/x/space/upstat".data ++
      '?' :: ("mid=".data ++ (mid.data ++ "&jsonp=jsonp".data))) := rfl
  rw [e] at h
  exact rawQuery_ne_empty _ _ _ (by decide) (by decide) (by decide) (by decide) info h

theorem httpGet_calls (env : Env) (api : String)
    (hq : ∀ info, urlParse api = some info → info.RawQuery ≠ "") :
    (httpGet env api []).calls = (if urlParse api = none then [] else [api ++ "&"]) ∧
    (urlParse api = none → (httpGet env api []).err ≠ .nil) := by
  unfold httpGet
  cases hp : urlParse api with
  | none => simp
  | some info =>
    have hne := hq info hp
    have e : api ++ "&" ++ build [] = api ++ "&" := by rw [build_nil]; simp
    simp only [hne, if_false, e]
    cases env.get (api ++ "&") <;> simp

theorem handler_calls (env : Env) (query : Values)
    (hmid : TrimSpace (Values.Get query "mid") ≠ "") :
    (handler env query).calls <+:
        [statURL (TrimSpace (Values.Get query "mid")) ++ "&",
         upstatURL (TrimSpace (Values.Get query "mid")) ++ "&"] ∧
    (urlParse (statURL (TrimSpace (Values.Get query "mid"))) ≠ none →
      (handler env query).calls.head? = some (statURL (TrimSpace (Values.Get query "mid")) ++ "&")) ∧
    (∀ statResp : StatResp,
      (httpGet env (statURL (TrimSpace (Values.Get query "mid"))) []).err = .nil →
      env.unmarshalStat (httpGet env (statURL (TrimSpace (Values.Get query "mid"))) []).body
        = .ok statResp →
      statResp.Code = 0 →
      urlParse (upstatURL (TrimSpace (Values.Get query "mid"))) ≠ none →
      (handler env query).calls =
        [statURL (TrimSpace (Values.Get query "mid")) ++ "&",
         upstatURL (TrimSpace (Values.Get query "mid")) ++ "&"]) := by
  generalize hm : TrimSpace (Values.Get query "mid") = mid at hmid
  obtain ⟨c1, e1⟩ := httpGet_calls env (statURL mid) (statURL_rawQuery mid)
  obtain ⟨c2, e2⟩ := httpGet_calls env (upstatURL mid) (upstatURL_rawQuery mid)
  have hh : handler env query =
      (match (httpGet env (statURL mid) []).err with
      | .err e => ⟨(httpGet env (statURL mid) []).calls, sendErrorOf (.err e)⟩
      | .nil =>
        match env.unmarshalStat (httpGet env (statURL mid) []).body with
        | .error e => ⟨(httpGet env (statURL mid) []).calls, sendErrorOf (.err e)⟩
        | .ok statResp =>
          if statResp.Code ≠ 0 then ⟨(httpGet env (statURL mid) []).calls, sendErrorOf .nil⟩
          else handlerUpstat env mid statResp (httpGet env (statURL mid) []).calls) := by
    simp only [handler, hm, hmid, if_false]
  have hup : ∀ statResp calls, (handlerUpstat env mid statResp calls).calls
      = calls ++ (httpGet env (upstatURL mid) []).calls := by
    intro statResp calls
    unfold handlerUpstat
    dsimp only
    split
    · rfl
    · split
      · rfl
      · split <;> rfl
  have hcalls : (handler env query).calls = (httpGet env (statURL mid) []).calls ∨
      ∃ statResp, (httpGet env (statURL mid) []).err = .nil ∧
        env.unmarshalStat (httpGet env (statURL mid) []).body = .ok statResp ∧
        statResp.Code = 0 ∧
        (handler env query).calls
          = (httpGet env (statURL mid) []).calls ++ (httpGet env (upstatURL mid) []).calls := by
    rw [hh]
    split
    · exact Or.inl rfl
    · rename_i hnil
      split
      · exact Or.inl rfl
      · rename_i statResp hok
        by_cases hcode : statResp.Code = 0
        · refine Or.inr ⟨statResp, hnil, hok, hcode, ?_⟩
          simp only [hcode, ne_eq, not_true_eq_false, if_false, hup]
        · simp only [ne_eq, hcode, not_false_eq_true, if_true]
          exact Or.inl trivial
  refine ⟨?_, ?_, ?_⟩
  · rcases hcalls with h | ⟨statResp, hnil, _, _, h⟩
    · rw [h, c1]
      split
      · exact List.nil_prefix
      · exact ⟨[_], rfl⟩
    · have hp1 : urlParse (statURL mid) ≠ none := fun hc => e1 hc hnil
      rw [h, c1, c2, if_neg hp1]
      split
      · exact ⟨[_], rfl⟩
      · exact List.prefix_refl _
  · intro hp1
    rcases hcalls with h | ⟨statResp, _, _, _, h⟩
    · rw [h, c1, if_neg hp1]; rfl
    · rw [h, c1, if_neg hp1]; rfl
  · intro statResp hnil hok hcode hp2
    have hp1 : urlParse (statURL mid) ≠ none := fun hc => e1 hc hnil
    rw [hh]
    simp only [hnil, hok, hcode, ne_eq, not_true_eq_false, if_false, hup, c1, c2, if_neg hp1,
      if_neg hp2]
    rfl

theorem handler_parse_rejected (env : Env) (query : Values)
    (hmid : TrimSpace (Values.Get query "mid") ≠ "")
    (hp : urlParse (statURL (TrimSpace (Values.Get query "mid"))) = none) :
    handler env query = ⟨[], .wrote (.apiResponse
      ⟨-1, env.parseErrorText (statURL (TrimSpace (Values.Get query "mid")))⟩)⟩ := by
  simp only [handler, hmid, if_false, httpGet, hp, sendErrorOf, GoError.Error, apiSendError]

theorem handler_second_rejected (env : Env) (query : Values) (statResp : StatResp)
    (hmid : TrimSpace (Values.Get query "mid") ≠ "")
    (h1 : (httpGet env (statURL (TrimSpace (Values.Get query "mid"))) []).err = .nil)
    (d1 : env.unmarshalStat (httpGet env (statURL (TrimSpace (Values.Get query "mid"))) []).body
      = .ok statResp)
    (c1 : statResp.Code = 0)
    (hp2 : urlParse (upstatURL (TrimSpace (Values.Get query "mid"))) = none) :
    (handler env query).calls = [statURL (TrimSpace (Values.Get query "mid")) ++ "&"] := by
  obtain ⟨c, e⟩ := httpGet_calls env (statURL (TrimSpace (Values.Get query "mid")))
    (statURL_rawQuery _)
  have hp : urlParse (statURL (TrimSpace (Values.Get query "mid"))) ≠ none := fun hc => e hc h1
  have h2 : httpGet env (upstatURL (TrimSpace (Values.Get query "mid"))) []
      = ⟨[], "", .err (env.parseErrorText (upstatURL (TrimSpace (Values.Get query "mid"))))⟩ := by
    simp only [httpGet, hp2]
  simp only [handler, hmid, if_false, h1, d1, c1, ne_eq, not_true_eq_false, handlerUpstat, h2,
    c, if_neg hp, List.append_nil]

/-! ## Scalars that are not strings, and envelopes with a non-zero code -/

theorem toDigitsCore_forall (P : Char → Prop) (hP : ∀ d, d < 10 → P (Nat.digitChar d))
    (fuel : Nat) : ∀ (n : Nat) (ds : List Char), (∀ c ∈ ds, P c) →
    ∀ c ∈ Nat.toDigitsCore 10 fuel n ds, P c := by
  induction fuel with
  | zero => intro n ds h; simpa [Nat.toDigitsCore] using h
  | succ fuel ih =>
    intro n ds h
    have hd : ∀ c ∈ Nat.digitChar (n % 10) :: ds, P c := by
      intro c hc
      rcases List.mem_cons.mp hc with hc | hc
      · rw [hc]; exact hP _ (Nat.mod_lt _ (by decide))
      · exact h c hc
    simp only [Nat.toDigitsCore]
    split
    · exact hd
    · exact ih _ _ hd

theorem escapeChar_digit (d : Nat) (h : d < 10) :
    escapeChar (Nat.digitChar d) = [Nat.digitChar d] := by
  interval_cases d <;> decide

theorem queryEscape_append (a b : String) :
    QueryEscape (a ++ b) = QueryEscape a ++ QueryEscape b := by
  apply String.ext
  simp [QueryEscape, List.flatMap_append]

theorem queryEscape_fixed (s : String) (h : ∀ c ∈ s.data, escapeChar c = [c]) :
    QueryEscape s = s := by
  apply String.ext
  simp only [QueryEscape]
  generalize s.data = l at h
  induction l with
  | nil => rfl
  | cons c l ih =>
    simp only [List.flatMap_cons, h c (List.mem_cons_self _ _), List.singleton_append]
    rw [ih (fun c hc => h c (List.mem_cons_of_mem _ hc))]

theorem queryEscape_nat (m : Nat) : QueryEscape (Nat.repr m) = Nat.repr m := by
  apply queryEscape_fixed
  simp only [Nat.repr, Nat.toDigits, List.asString]
  exact toDigitsCore_forall (fun c => escapeChar c = [c]) escapeChar_digit _ _ _ (by simp)

theorem queryEscape_int (n : Int) : QueryEscape (fmtD n) = fmtD n := by
  cases n with
  | ofNat m => exact queryEscape_nat m
  | negSucc m =>
    have e : fmtD (Int.negSucc m) = "-" ++ Nat.repr (m + 1) := rfl
    rw [e, queryEscape_append, queryEscape_nat]
    rfl

theorem build_single_scalar (k : String) (s : Scalar) :
    build [(k, .scalar s)] = pairText k (fmtS s) := by
  have h : flatParams [(k, .scalar s)] = [(k, fmtS s)] := rfl
  rw [build, h, encodeParams_eq _ (by simp)]
  simp [sortStrings, String.intercalate, String.intercalate.go, FlatMap.get]

theorem handler_code_nonzero (env : Env) (query : Values) (statResp : StatResp)
    (hmid : TrimSpace (Values.Get query "mid") ≠ "")
    (h1 : (httpGet env (statURL (TrimSpace (Values.Get query "mid"))) []).err = .nil)
    (d1 : env.unmarshalStat (httpGet env (statURL (TrimSpace (Values.Get query "mid"))) []).body
      = .ok statResp)
    (c1 : statResp.Code ≠ 0) :
    handler env query
      = ⟨[statURL (TrimSpace (Values.Get query "mid")) ++ "&"], .panicked⟩ := by
  obtain ⟨c, e⟩ := httpGet_calls env (statURL (TrimSpace (Values.Get query "mid")))
    (statURL_rawQuery _)
  have hp : urlParse (statURL (TrimSpace (Values.Get query "mid"))) ≠ none := fun hc => e hc h1
  simp only [handler, hmid, if_false, h1, d1, c1, ne_eq, not_false_eq_true, if_true, c,
    if_neg hp, sendErrorOf, GoError.Error]


/-! ## The claims -/

/-- C1: for `{"a": {"b": [1, 2]}}` the flat parameter map of `build` has the
keys `a[b][0]` and `a[b][1]` of the two leaves, but their values are
`%!s(int=1)` and `%!s(int=2)`, not the texts `1` and `2` of the leaves: the
entry of `a[b][0]` holds the text of no leaf with that key.  For every nested
parameter map the keys are exactly the flattened keys of the scalar leaves
(`s0[s1]...[sn]`, the bare `s0` for a top-level scalar) and are pairwise
distinct; every entry holds what `%s` prints for a leaf with its key, which is
the text of the leaf when the leaf is a string; and an empty list or an empty
map, at the top level or nested, leaves the flat map as it was. -/
theorem flatParams_keys :
    flatParams [("a", .map [("b", .list [.scalar (.int 1), .scalar (.int 2)])])]
      = [("a[b][0]", "%!s(int=1)"), ("a[b][1]", "%!s(int=2)")] ∧
    scalarLeaves [("a", .map [("b", .list [.scalar (.int 1), .scalar (.int 2)])])]
      = [(["a", "b", "0"], .int 1), (["a", "b", "1"], .int 2)] ∧
    canonicalText (.int 1) = "1" ∧ canonicalText (.int 2) = "2" ∧
    (¬ ∀ key text,
      (key, text) ∈ flatParams [("a", .map [("b", .list [.scalar (.int 1), .scalar (.int 2)])])] →
      ∃ l ∈ scalarLeaves [("a", .map [("b", .list [.scalar (.int 1), .scalar (.int 2)])])],
        flatKey l.1 = key ∧ canonicalText l.2 = text) ∧
    (∀ raw : List (String × Value),
      (∀ key, key ∈ (flatParams raw).map Prod.fst ↔
        ∃ l ∈ scalarLeaves raw, flatKey l.1 = key) ∧
      (∀ key text, (key, text) ∈ flatParams raw →
        ∃ l ∈ scalarLeaves raw, flatKey l.1 = key ∧ fmtS l.2 = text ∧
          ((∃ s, l.2 = .str s) → canonicalText l.2 = text)) ∧
      ((flatParams raw).map Prod.fst).Nodup) ∧
    (∀ s0 : String, flatKey [s0] = s0) ∧
    (∀ (p : FlatMap) (k : String) (i : Nat) (keys : List String),
      buildLoop p [(k, .list [])] = p ∧ buildLoop p [(k, .map [])] = p ∧
      parseKeyValueCase p k (.list []) keys = p ∧ parseKeyValueCase p k (.map []) keys = p ∧
      parseNormalCase p i (.list []) keys = p ∧ parseNormalCase p i (.map []) keys = p) := by
  have hflat : flatParams [("a", .map [("b", .list [.scalar (.int 1), .scalar (.int 2)])])]
      = [("a[b][0]", "%!s(int=1)"), ("a[b][1]", "%!s(int=2)")] := by decide
  have hleaves : scalarLeaves [("a", .map [("b", .list [.scalar (.int 1), .scalar (.int 2)])])]
      = [(["a", "b", "0"], .int 1), (["a", "b", "1"], .int 2)] := by decide
  refine ⟨hflat, hleaves, by decide, by decide, ?_, ?_, ?_, ?_⟩
  · intro h
    obtain ⟨l, hl, hk, ht⟩ := h "a[b][0]" "%!s(int=1)" (by rw [hflat]; simp)
    rw [hleaves] at hl
    simp only [List.mem_cons, List.mem_singleton, List.not_mem_nil, or_false] at hl
    rcases hl with hl | hl
    · subst hl; revert ht; decide
    · subst hl; revert ht; decide
  · intro raw
    refine ⟨?_, ?_, ?_⟩
    · intro key
      rw [flatParams_eq_setAll, mem_keys_setAll]
      simp only [List.map_nil, List.not_mem_nil, false_or, leafEntries, List.map_map,
        List.mem_map, Function.comp, leafEntry]
    · intro key text h
      rw [flatParams_eq_setAll] at h
      rcases mem_setAll _ _ _ h with h | h
      · simp at h
      · obtain ⟨l, hl, he⟩ := List.mem_map.mp h
        simp only [leafEntry, Prod.mk.injEq] at he
        refine ⟨l, hl, he.1, he.2, ?_⟩
        rintro ⟨s, hs⟩
        rw [← he.2, hs]
        rfl
    · rw [flatParams_eq_setAll]
      exact nodup_keys_setAll _ _ (by simp)
  · intro s0
    simp [flatKey, String.join]
  · intro p k i keys
    simp [buildLoop, parseNormal, parseNormalFrom, parseKeyValue, parseKeyValueCase,
      parseNormalCase]

/-- C2: for the map `{"a": 1}` with the integer 1, `build` returns the escaped
text of `a=%!s(int=1)`, not `a=1`; a boolean is rendered `%!s(bool=true)`;
a string scalar is rendered as its own text; and for every integer `n` the
result is the escaped text of `a=%!s(int=n)`. -/
theorem build_int_scalar :
    build [("a", .scalar (.int 1))] = "a=%25%21s%28int%3D1%29" ∧
    build [("a", .scalar (.int 1))] ≠ "a=1" ∧
    build [("a", .scalar (.bool true))] = "a=%25%21s%28bool%3Dtrue%29" ∧
    build [("a", .scalar (.str "1"))] = "a=1" ∧
    (∀ n : Int, build [("a", .scalar (.int n))] = "a=%25%21s%28int%3D" ++ fmtD n ++ "%29") := by
  refine ⟨by decide, by decide, by decide, by decide, ?_⟩
  intro n
  have e : fmtS (.int n) = "%!s(int=" ++ fmtD n ++ ")" := rfl
  rw [build_single_scalar, pairText, e, queryEscape_append, queryEscape_append, queryEscape_int]
  have h1 : QueryEscape "a" = "a" := by decide
  have h2 : QueryEscape "%!s(int=" = "%25%21s%28int%3D" := by decide
  have h3 : QueryEscape ")" = "%29" := by decide
  have h4 : "a" ++ "=" ++ "%25%21s%28int%3D" = "a=%25%21s%28int%3D" := by decide
  rw [h1, h2, h3, ← String.append_assoc, ← String.append_assoc, h4]

set_option maxRecDepth 100000 in
/-- C3, as stated, fails: for a list of eleven scalars under the key `a` the
pair of `a[10]` comes second, before the pair of `a[1]`, so the pairs are not
in the order of the indices. -/
theorem build_list_order_counterexample :
    build [("a", .list [.scalar (.str "v0"), .scalar (.str "v1"), .scalar (.str "v2"),
      .scalar (.str "v3"), .scalar (.str "v4"), .scalar (.str "v5"), .scalar (.str "v6"),
      .scalar (.str "v7"), .scalar (.str "v8"), .scalar (.str "v9"), .scalar (.str "v10")])]
      = "a%5B0%5D=v0&a%5B10%5D=v10&a%5B1%5D=v1&a%5B2%5D=v2&a%5B3%5D=v3&a%5B4%5D=v4&a%5B5%5D=v5&a%5B6%5D=v6&a%5B7%5D=v7&a%5B8%5D=v8&a%5B9%5D=v9" ∧
    build [("a", .list [.scalar (.str "v0"), .scalar (.str "v1"), .scalar (.str "v2"),
      .scalar (.str "v3"), .scalar (.str "v4"), .scalar (.str "v5"), .scalar (.str "v6"),
      .scalar (.str "v7"), .scalar (.str "v8"), .scalar (.str "v9"), .scalar (.str "v10")])]
      ≠ "&".intercalate ((List.range 11).map
          (fun i => pairText (indexKey "a" i) ("v" ++ fmtD i))) := by decide

/-- C3, amended: for a top-level key `k` and a list of `n` scalars, the query
string is exactly `n` pairs joined by `&`, one per index, each the escaped key
`k[i]`, `=`, and the escaped text of element `i`; the pairs are in strictly
ascending order of their keys `k[i]`, which is the order of the indices
when `n ≤ 10`. -/
theorem build_list_pairs (k : String) (vs : List Scalar) :
    build [(k, .list (vs.map .scalar))] = "&".intercalate
      ((indexOrder k vs.length).map
        (fun i => pairText (indexKey k i) (fmtS (vs.getD i .null)))) ∧
    (indexOrder k vs.length).Perm (List.range vs.length) ∧
    (indexOrder k vs.length).Pairwise (fun i j => (indexKey k i).data < (indexKey k j).data) ∧
    (vs.length ≤ 10 → indexOrder k vs.length = List.range vs.length) := by
  refine ⟨build_list_eq k vs, indexOrder_perm k _, ?_, indexOrder_small k _⟩
  have hs := List.pairwise_map.mp (indexOrder_sorted k vs.length)
  have hn : (indexOrder k vs.length).Nodup :=
    (indexOrder_perm k _).nodup_iff.mpr (List.nodup_range _)
  refine (hs.and hn).imp ?_
  intro a b hab
  rcases lt_or_eq_of_le hab.1 with h1 | h1
  · exact h1
  · exact absurd (indexKey_inj k (String.ext h1)) hab.2

/-- C4: when the first envelope decodes with a code that is not 0, the handler
makes no second call, but it writes no error envelope: `err` is nil at line
122, `err.Error()` panics, and nothing is written. -/
theorem handler_nonzero_code_panics :
    handler (answering (-400) 0) [("mid", ["1"])]
      = ⟨["https://api.bilibili.com/x/relation/stat?vmid=1&jsonp=jsonp&"], .panicked⟩ := by
  decide

/-- C5: when both calls succeed and both envelopes decode with code 0, the
handler writes the three frames: the follower count in decimal with icon
`a61`, the archive view count in decimal with icon `a2361`, and the literal
`3000` with icon `i15732`. -/
theorem handler_success (env : Env) (query : Values) (statResp : StatResp)
    (upStatResp : UpStatResp)
    (hmid : TrimSpace (Values.Get query "mid") ≠ "")
    (h1 : (httpGet env (statURL (TrimSpace (Values.Get query "mid"))) []).err = .nil)
    (d1 : env.unmarshalStat (httpGet env (statURL (TrimSpace (Values.Get query "mid"))) []).body
      = .ok statResp)
    (c1 : statResp.Code = 0)
    (h2 : (httpGet env (upstatURL (TrimSpace (Values.Get query "mid"))) []).err = .nil)
    (d2 : env.unmarshalUpStat
      (httpGet env (upstatURL (TrimSpace (Values.Get query "mid"))) []).body = .ok upStatResp)
    (c2 : upStatResp.Code = 0) :
    (handler env query).outcome = .wrote (.frames
      [ ⟨fmtD statResp.Data.Follower, "a61"⟩,
        ⟨fmtD upStatResp.Data.Archive.View, "a2361"⟩,
        ⟨"3000", "i15732"⟩ ]) := by
  simp only [handler, hmid, if_false, h1, d1, c1, ne_eq, not_true_eq_false, handlerUpstat, h2,
    d2, c2, apiSendData]

/-- A run of `handler_success`: follower count 5, archive view count 7. -/
theorem handler_success_witness :
    (handler (answering 0 0) [("mid", [" 42 "])]).outcome = .wrote (.frames
      [ ⟨"5", "a61"⟩, ⟨"7", "a2361"⟩, ⟨"3000", "i15732"⟩ ]) :=
  handler_success (answering 0 0) [("mid", [" 42 "])]
    ⟨⟨0, "", 1⟩, ⟨1, 0, 0, 0, 5⟩⟩ ⟨⟨0, "", 1⟩, ⟨⟨7⟩, ⟨0⟩⟩⟩
    (by decide) (by decide) rfl rfl (by decide) rfl rfl

/-- C6: when the `mid` parameter is absent, empty or all white space, the
handler writes the error envelope with code -1 and message `mid empty`, and
makes no outbound call. -/
theorem handler_mid_empty (env : Env) (query : Values)
    (h : Values.lookup query "mid" = [] ∨
      ∀ c ∈ (Values.Get query "mid").data, isSpace c = true) :
    handler env query = ⟨[], .wrote (.apiResponse ⟨-1, "mid empty"⟩)⟩ := by
  have hb : TrimSpace (Values.Get query "mid") = "" := by
    rcases h with h | h
    · rw [get_absent query "mid" h]; decide
    · exact trimSpace_blank _ h
  simp [handler, hb, apiSendError]

/-- A run of `handler_mid_empty` on a `mid` of three spaces. -/
theorem handler_mid_empty_witness :
    handler (answering 0 0) [("mid", ["   "])] = ⟨[], .wrote (.apiResponse ⟨-1, "mid empty"⟩)⟩ :=
  handler_mid_empty (answering 0 0) [("mid", ["   "])] (Or.inr (by decide))

/-- C7, as stated, fails: for `mid = 1` the URLs given to `http.Get` end in
`&`, so they are not the URLs the handler formats. -/
theorem handler_urls_counterexample :
    (handler (answering 0 0) [("mid", ["1"])]).calls
      = ["https://api.bilibili.com/x/relation/stat?vmid=1&jsonp=jsonp&",
         "https://api.bilibili.com/x/space/upstat?mid=1&jsonp=jsonp&"] ∧
    (handler (answering 0 0) [("mid", ["1"])]).calls
      ≠ ["https://api.bilibili.com/x/relation/stat?vmid=1&jsonp=jsonp",
         "https://api.bilibili.com/x/space/upstat?mid=1&jsonp=jsonp"] := by decide

/-- C7, amended: for a non-blank `mid` the encoder returns the empty string
for the absent parameters, and `httpGet` appends `&` and that string.  When
`url.Parse` rejects the relation-stats URL nothing is requested and the
handler answers with the parse error; when it accepts the URL, the first
request is that URL followed by `&`.  The calls are always a prefix of the
two URLs, each followed by `&`; when the first envelope is accepted, the
second request is the upload-stats URL followed by `&` if `url.Parse` accepts
it, and no second request is made if `url.Parse` rejects it. -/
theorem handler_request_urls (env : Env) (query : Values)
    (hmid : TrimSpace (Values.Get query "mid") ≠ "") :
    build [] = "" ∧
    (urlParse (statURL (TrimSpace (Values.Get query "mid"))) = none →
      handler env query = ⟨[], .wrote (.apiResponse
        ⟨-1, env.parseErrorText (statURL (TrimSpace (Values.Get query "mid")))⟩)⟩) ∧
    (urlParse (statURL (TrimSpace (Values.Get query "mid"))) ≠ none →
      (handler env query).calls.head? = some (statURL (TrimSpace (Values.Get query "mid")) ++ "&")) ∧
    (handler env query).calls <+:
        [statURL (TrimSpace (Values.Get query "mid")) ++ "&",
         upstatURL (TrimSpace (Values.Get query "mid")) ++ "&"] ∧
    (∀ statResp : StatResp,
      (httpGet env (statURL (TrimSpace (Values.Get query "mid"))) []).err = .nil →
      env.unmarshalStat (httpGet env (statURL (TrimSpace (Values.Get query "mid"))) []).body
        = .ok statResp →
      statResp.Code = 0 →
      (urlParse (upstatURL (TrimSpace (Values.Get query "mid"))) ≠ none →
        (handler env query).calls =
          [statURL (TrimSpace (Values.Get query "mid")) ++ "&",
           upstatURL (TrimSpace (Values.Get query "mid")) ++ "&"]) ∧
      (urlParse (upstatURL (TrimSpace (Values.Get query "mid"))) = none →
        (handler env query).calls = [statURL (TrimSpace (Values.Get query "mid")) ++ "&"])) := by
  obtain ⟨hpre, hhead, hboth⟩ := handler_calls env query hmid
  refine ⟨build_nil, handler_parse_rejected env query hmid, hhead, hpre, ?_⟩
  intro statResp h1 d1 c1
  exact ⟨hboth statResp h1 d1 c1, handler_second_rejected env query statResp hmid h1 d1 c1⟩

/-- Two runs of `handler_request_urls`: with `mid = 7` both URLs are requested,
each followed by `&`; with a tab inside `mid` nothing is requested. -/
theorem handler_request_urls_witness :
    (TrimSpace (Values.Get [("mid", ["7"])] "mid") ≠ "" ∧
      (handler (answering 0 0) [("mid", ["7"])]).calls =
        ["https://api.bilibili.com/x/relation/stat?vmid=7&jsonp=jsonp&",
         "https://api.bilibili.com/x/space/upstat?mid=7&jsonp=jsonp&"]) ∧
    (TrimSpace (Values.Get [("mid", ["a\tb"])] "mid") ≠ "" ∧
      handler (answering 0 0) [("mid", ["a\tb"])]
        = ⟨[], .wrote (.apiResponse ⟨-1, "parse: invalid URL"⟩)⟩) :=
  ⟨⟨by decide, ((handler_request_urls (answering 0 0) [("mid", ["7"])] (by decide)).2.2.2.2
      ⟨⟨0, "", 1⟩, ⟨1, 0, 0, 0, 5⟩⟩ (by decide) rfl rfl).1 (by decide)⟩,
   ⟨by decide, (handler_request_urls (answering 0 0) [("mid", ["a\tb"])] (by decide)).2.1
      (by decide)⟩⟩

/-- C8: for `{"a": 1}` the flat map of `build` has the key `a` of the input,
but maps it to `%!s(int=1)`, not to the text `1` of the input value.  For every
map from distinct string keys to scalars the flat map has the keys of the
input, each with what `%s` prints for its value, which is the text of the
value when all values are strings; and flattening that flat map again, as a
map of string scalars visited in any order, gives the same flat map. -/
theorem flat_map_fixed_point :
    flatParams [("a", .scalar (.int 1))] = [("a", "%!s(int=1)")] ∧
    canonicalText (.int 1) = "1" ∧
    flatParams [("a", .scalar (.int 1))] ≠ [("a", canonicalText (.int 1))] ∧
    (∀ m : List (String × Scalar), (m.map Prod.fst).Nodup →
      (flatParams (m.map (fun e => (e.1, Value.scalar e.2)))).map Prod.fst = m.map Prod.fst ∧
      flatParams (m.map (fun e => (e.1, Value.scalar e.2))) = m.map (fun e => (e.1, fmtS e.2)) ∧
      ((∀ e ∈ m, ∃ s, e.2 = .str s) →
        flatParams (m.map (fun e => (e.1, Value.scalar e.2)))
          = m.map (fun e => (e.1, canonicalText e.2))) ∧
      ∀ es : FlatMap, es.Perm (flatParams (m.map (fun e => (e.1, Value.scalar e.2)))) →
        flatParams (es.map (fun e => (e.1, Value.scalar (.str e.2)))) = es) := by
  have key : ∀ m : List (String × Scalar),
      leafEntries (m.map (fun e => (e.1, Value.scalar e.2))) = m.map (fun e => (e.1, fmtS e.2)) := by
    intro m
    induction m with
    | nil => rfl
    | cons e m ih =>
      simp only [leafEntries, scalarLeaves] at ih
      simp [leafEntries, scalarLeaves, leavesMap, Value.leaves, leafEntry, flatKey, String.join, ih]
  have flat : ∀ m : List (String × Scalar), (m.map Prod.fst).Nodup →
      flatParams (m.map (fun e => (e.1, Value.scalar e.2))) = m.map (fun e => (e.1, fmtS e.2)) := by
    intro m hm
    rw [flatParams_of_nodup _ (by rw [key]; simpa [Function.comp_def] using hm), key]
  refine ⟨by decide, by decide, by decide, ?_⟩
  intro m hk
  refine ⟨?_, flat m hk, ?_, ?_⟩
  · rw [flat m hk]; simp [Function.comp_def]
  · intro hstr
    rw [flat m hk]
    apply List.map_congr_left
    intro e he
    obtain ⟨s, hs⟩ := hstr e he
    rw [hs]
    rfl
  · intro es hes
    rw [flat m hk] at hes
    have hes' : (es.map Prod.fst).Nodup :=
      (hes.map Prod.fst).nodup_iff.mpr (by simpa [Function.comp_def] using hk)
    have := flat (es.map (fun e => (e.1, Scalar.str e.2))) (by simpa [Function.comp_def] using hes')
    simpa [Function.comp_def, fmtS] using this

/-- C9, as stated, fails: in the well-formed map `{"a": {"b": "1"}, "a[b]": "2"}`
the leaves at the paths `[a, b]` and `[a[b]]` have the same flattened key
`a[b]`, and the flat map has one entry for the two leaves. -/
theorem flat_keys_collide :
    WellFormed [("a", .map [("b", .scalar (.str "1"))]), ("a[b]", .scalar (.str "2"))] ∧
    scalarLeaves [("a", .map [("b", .scalar (.str "1"))]), ("a[b]", .scalar (.str "2"))]
      = [(["a", "b"], .str "1"), (["a[b]"], .str "2")] ∧
    flatKey ["a", "b"] = flatKey ["a[b]"] ∧
    flatParams [("a", .map [("b", .scalar (.str "1"))]), ("a[b]", .scalar (.str "2"))]
      = [("a[b]", "2")] := by decide

/-- C9, amended: in a well-formed nested parameter map none of whose map keys
contains `[`, two scalar leaves at different paths have different flattened
keys, leaves at different positions have different paths, and the flat map
has exactly one entry per scalar leaf, the flattened key of the leaf with
the text of the leaf. -/
theorem flat_keys_unique (raw : List (String × Value)) (hwf : WellFormed raw)
    (hno : NoOpenBracket raw) :
    (∀ l1 ∈ scalarLeaves raw, ∀ l2 ∈ scalarLeaves raw,
      l1.1 ≠ l2.1 → flatKey l1.1 ≠ flatKey l2.1) ∧
    ((scalarLeaves raw).map Prod.fst).Nodup ∧
    flatParams raw = (scalarLeaves raw).map (fun l => (flatKey l.1, fmtS l.2)) ∧
    (flatParams raw).length = (scalarLeaves raw).length := by
  have hflat : flatParams raw = leafEntries raw :=
    flatParams_of_nodup raw (by rw [leafEntries_keys]; exact leaf_keys_nodup raw hwf hno)
  refine ⟨?_, scalarLeaves_paths_nodup raw hwf, hflat, ?_⟩
  · intro l1 hl1 l2 hl2 hne he
    exact hne (flatKey_inj (scalarLeaves_path_ne_nil raw l1 hl1)
      (scalarLeaves_path_ne_nil raw l2 hl2) (scalarLeaves_noOpen raw hno l1 hl1)
      (scalarLeaves_noOpen raw hno l2 hl2) he)
  · rw [hflat]; simp [leafEntries]

/-- A run of `flat_keys_unique` on `{"a": {"b": ["1", "2"]}, "c": "3"}`. -/
theorem flat_keys_unique_witness :
    flatParams [("a", .map [("b", .list [.scalar (.str "1"), .scalar (.str "2")])]),
        ("c", .scalar (.str "3"))]
      = (scalarLeaves [("a", .map [("b", .list [.scalar (.str "1"), .scalar (.str "2")])]),
          ("c", .scalar (.str "3"))]).map (fun l => (flatKey l.1, fmtS l.2)) :=
  (flat_keys_unique [("a", .map [("b", .list [.scalar (.str "1"), .scalar (.str "2")])]),
    ("c", .scalar (.str "3"))] (by decide) (by decide)).2.2.1

/-- C10: `build` does not depend on the order in which Go iterates its maps.
When the scalar leaves of `raw` have pairwise distinct flattened keys, every
reordering `raw'` of the maps of `raw`, and every order `es` in which the
flat map is then visited, gives the query string `build raw`; that string is
the pairs `key=value` joined by `&` in strictly ascending order of the
flattened keys. -/
theorem build_deterministic (raw raw' : List (String × Value))
    (hre : Reorder (.map raw) (.map raw'))
    (hd : ((scalarLeaves raw).map (fun l => flatKey l.1)).Nodup) :
    (∀ es : FlatMap, es.Perm (flatParams raw') → encodeParams es = build raw) ∧
    build raw = "&".intercalate
      ((sortStrings ((scalarLeaves raw).map (fun l => flatKey l.1))).map
        (fun k => pairText k (FlatMap.get (leafEntries raw) k))) ∧
    (sortStrings ((scalarLeaves raw).map (fun l => flatKey l.1))).Pairwise
      (fun a b => a.data < b.data) := by
  have hk : ((leafEntries raw).map Prod.fst).Nodup := by rw [leafEntries_keys]; exact hd
  have hp : (leafEntries raw).Perm (leafEntries raw') := (scalarLeaves_perm hre).map leafEntry
  have hk' : ((leafEntries raw').map Prod.fst).Nodup := (hp.map Prod.fst).nodup_iff.mp hk
  have h1 : flatParams raw = leafEntries raw := flatParams_of_nodup raw hk
  have h2 : flatParams raw' = leafEntries raw' := flatParams_of_nodup raw' hk'
  refine ⟨?_, ?_, sortStrings_strict _ hd⟩
  · intro es hes
    rw [h2] at hes
    have : es.Perm (leafEntries raw) := hes.trans hp.symm
    rw [build, h1]
    exact encodeParams_perm this ((this.map Prod.fst).nodup_iff.mpr hk)
  · rw [build, h1, encodeParams_eq _ hk, leafEntries_keys]

/-- A run of `build_deterministic`: the map `{"b": "2", "a": ["x", "y"]}` and
the same map visited in the other order. -/
theorem build_deterministic_witness :
    build [("a", .list [.scalar (.str "x"), .scalar (.str "y")]), ("b", .scalar (.str "2"))]
      = build [("b", .scalar (.str "2")), ("a", .list [.scalar (.str "x"), .scalar (.str "y")])] :=
  (build_deterministic
    [("b", .scalar (.str "2")), ("a", .list [.scalar (.str "x"), .scalar (.str "y")])]
    [("a", .list [.scalar (.str "x"), .scalar (.str "y")]), ("b", .scalar (.str "2"))]
    (Reorder.perm (List.Perm.swap _ _ _)) (by decide)).1 _ (List.Perm.refl _)

end BilibiliLametric
